import Mathlib

/-!
Verification of the pushdown coprocessor specification of dingo-poc.

The repository fragment ships the unit-test harness of the coprocessor
(test_coprocessor.cc), the gtest assertion helpers (assertions.h) and an SDK
example; the coprocessor core itself (RecordEncoder, Coprocessor) is only
declared and called there.  The record codec, the plan validation and the
executor are therefore modelled from the specification text, and the model is
checked against the concrete plans, records and call sequences that the test
harness builds.

Conventions: a byte string is a list of natural numbers, machine integers are
Int with explicit range side conditions, IEEE-754 floating point cells carry
the raw bit pattern as a natural number below 2 to the width, and fallible
operations return Option or Except.
-/

namespace DingoCop

/-! ## Byte strings, memcmp and the divergence order -/

/-- Strict byte-wise divergence: the two byte strings agree on a common prefix
and then the left one has a strictly smaller byte at a position that exists in
both.  This is exactly the condition under which the C memcmp of the common
prefix returns a negative value. -/
def bytesDiv : List Nat → List Nat → Bool
  | a :: as, b :: bs => decide (a < b) || (decide (a = b) && bytesDiv as bs)
  | _, _ => false

/-- Lexicographic order on byte strings in which a proper prefix sorts before
any extension; this is the order of the underlying key-value engine. -/
def bytesLtB : List Nat → List Nat → Bool
  | [], [] => false
  | [], _ :: _ => true
  | _ :: _, [] => false
  | a :: as, b :: bs => decide (a < b) || (decide (a = b) && bytesLtB as bs)

/-- The C library memcmp over the common length of two byte strings, returning
-1, 0 or 1. -/
def memcmp : List Nat → List Nat → Int
  | a :: as, b :: bs => if a < b then -1 else if b < a then 1 else memcmp as bs
  | _, _ => 0

theorem bytesDiv_append {a b : List Nat} (x y : List Nat)
    (h : bytesDiv a b = true) : bytesDiv (a ++ x) (b ++ y) = true := by
  induction a generalizing b with
  | nil => simp [bytesDiv] at h
  | cons ha ta ih =>
    cases b with
    | nil => simp [bytesDiv] at h
    | cons hb tb =>
      simp only [bytesDiv, Bool.or_eq_true, decide_eq_true_eq,
        Bool.and_eq_true] at h ⊢
      rcases h with h | ⟨he, hd⟩
      · exact Or.inl h
      · exact Or.inr ⟨he, ih hd⟩

theorem bytesDiv_cancel (p : List Nat) {a b : List Nat}
    (h : bytesDiv a b = true) : bytesDiv (p ++ a) (p ++ b) = true := by
  induction p with
  | nil => simpa using h
  | cons hp tp ih =>
    simp only [List.cons_append, bytesDiv, Bool.or_eq_true, decide_eq_true_eq,
      Bool.and_eq_true]
    right
    exact ⟨trivial, ih⟩

theorem memcmp_of_bytesDiv {a b : List Nat} (h : bytesDiv a b = true) :
    memcmp a b = -1 := by
  induction a generalizing b with
  | nil => simp [bytesDiv] at h
  | cons ha ta ih =>
    cases b with
    | nil => simp [bytesDiv] at h
    | cons hb tb =>
      simp only [bytesDiv, Bool.or_eq_true, decide_eq_true_eq,
        Bool.and_eq_true] at h
      rcases h with h | ⟨he, hd⟩
      · simp [memcmp, h]
      · subst he
        simp [memcmp, ih hd]

theorem bytesLtB_of_bytesDiv {a b : List Nat} (h : bytesDiv a b = true) :
    bytesLtB a b = true := by
  induction a generalizing b with
  | nil => simp [bytesDiv] at h
  | cons ha ta ih =>
    cases b with
    | nil => simp [bytesDiv] at h
    | cons hb tb =>
      simp only [bytesDiv, Bool.or_eq_true, decide_eq_true_eq,
        Bool.and_eq_true] at h
      simp only [bytesLtB, Bool.or_eq_true, decide_eq_true_eq,
        Bool.and_eq_true]
      rcases h with h | ⟨he, hd⟩
      · exact Or.inl h
      · exact Or.inr ⟨he, ih hd⟩

/-! ## Fixed-width words, big and little endian -/

/-- Big-endian bytes of a natural number in a fixed number of bytes, most
significant byte first. -/
def toBE : Nat → Nat → List Nat
  | 0, _ => []
  | w + 1, n => n / 256 ^ w :: toBE w (n % 256 ^ w)

/-- Parse a fixed number of big-endian bytes, returning the value and the
unconsumed tail. -/
def fromBE : Nat → List Nat → Option (Nat × List Nat)
  | 0, bs => some (0, bs)
  | _ + 1, [] => none
  | w + 1, b :: bs => (fromBE w bs).map fun p => (b * 256 ^ w + p.1, p.2)

/-- Little-endian bytes of a natural number in a fixed number of bytes. -/
def toLE : Nat → Nat → List Nat
  | 0, _ => []
  | w + 1, n => n % 256 :: toLE w (n / 256)

/-- Parse a fixed number of little-endian bytes. -/
def fromLE : Nat → List Nat → Option (Nat × List Nat)
  | 0, bs => some (0, bs)
  | _ + 1, [] => none
  | w + 1, b :: bs => (fromLE w bs).map fun p => (b + 256 * p.1, p.2)

theorem toBE_length (w n : Nat) : (toBE w n).length = w := by
  induction w generalizing n with
  | zero => rfl
  | succ w ih => simp [toBE, ih]

theorem fromBE_toBE (w : Nat) {n : Nat} (hn : n < 256 ^ w) (r : List Nat) :
    fromBE w (toBE w n ++ r) = some (n, r) := by
  induction w generalizing n with
  | zero =>
    interval_cases n
    simp [toBE, fromBE]
  | succ w ih =>
    have hpos : 0 < 256 ^ w := Nat.pos_pow_of_pos w (by norm_num)
    simp only [toBE, List.cons_append, fromBE, List.append_eq,
      ih (Nat.mod_lt n hpos), Option.map_some']
    have h := Nat.div_add_mod n (256 ^ w)
    rw [Nat.mul_comm] at h
    rw [h]

theorem fromLE_toLE (w : Nat) {n : Nat} (hn : n < 256 ^ w) (r : List Nat) :
    fromLE w (toLE w n ++ r) = some (n, r) := by
  induction w generalizing n with
  | zero =>
    interval_cases n
    simp [toLE, fromLE]
  | succ w ih =>
    have hlt : n / 256 < 256 ^ w := by
      rw [Nat.div_lt_iff_lt_mul (by norm_num : 0 < 256)]
      calc n < 256 ^ (w + 1) := hn
        _ = 256 ^ w * 256 := by ring
    simp only [toLE, List.cons_append, fromLE, List.append_eq, ih hlt,
      Option.map_some']
    rw [Nat.mod_add_div n 256]

theorem toBE_mono (w : Nat) {m n : Nat} (hmn : m < n) (hn : n < 256 ^ w) :
    bytesDiv (toBE w m) (toBE w n) = true := by
  induction w generalizing m n with
  | zero => omega
  | succ w ih =>
    have hpos : 0 < 256 ^ w := Nat.pos_pow_of_pos w (by norm_num)
    have hle : m / 256 ^ w ≤ n / 256 ^ w := Nat.div_le_div_right (le_of_lt hmn)
    simp only [toBE, bytesDiv, Bool.or_eq_true, decide_eq_true_eq,
      Bool.and_eq_true]
    rcases lt_or_eq_of_le hle with hlt | heq
    · exact Or.inl hlt
    · refine Or.inr ⟨heq, ih ?_ (Nat.mod_lt n hpos)⟩
      have hm := Nat.div_add_mod m (256 ^ w)
      have hn2 := Nat.div_add_mod n (256 ^ w)
      rw [heq] at hm
      omega

/-! ## Varint (LEB128) lengths -/

/-- LEB128 variable-length encoding of a natural number, used for the length
of a string in the value part of a record. -/
def encVarint (n : Nat) : List Nat :=
  if h : n < 128 then [n] else (128 + n % 128) :: encVarint (n / 128)
termination_by n
decreasing_by exact Nat.div_lt_self (by omega) (by norm_num)

/-- Parse one LEB128 value, returning it and the unconsumed tail. -/
def parseVarint : List Nat → Option (Nat × List Nat)
  | [] => none
  | b :: bs =>
    if b < 128 then some (b, bs)
    else (parseVarint bs).map fun p => (b - 128 + 128 * p.1, p.2)

theorem parseVarint_enc (n : Nat) (r : List Nat) :
    parseVarint (encVarint n ++ r) = some (n, r) := by
  induction n using Nat.strong_induction_on with
  | _ n ih =>
    by_cases h : n < 128
    · rw [encVarint, dif_pos h]
      simp [parseVarint, h]
    · rw [encVarint, dif_neg h]
      simp only [List.cons_append, parseVarint, List.append_eq]
      have hge : ¬ 128 + n % 128 < 128 := by omega
      rw [if_neg hge, ih (n / 128) (Nat.div_lt_self (by omega) (by norm_num)),
        Option.map_some']
      simp only [Option.some.injEq, Prod.mk.injEq]
      exact ⟨by omega, trivial⟩

/-! ## Null bitmap packing -/

/-- Pack a little block of booleans into one byte, least significant bit
first. -/
def byteOfBits : List Bool → Nat
  | [] => 0
  | b :: bs => b.toNat + 2 * byteOfBits bs

/-- The first k bits of a byte, least significant first. -/
def bitsOfByte (k : Nat) (n : Nat) : List Bool :=
  (List.range k).map n.testBit

theorem bitsOfByte_byteOfBits (bs : List Bool) :
    bitsOfByte bs.length (byteOfBits bs) = bs := by
  induction bs with
  | nil => rfl
  | cons b rest ih =>
    simp only [List.length_cons, bitsOfByte, List.range_succ_eq_map,
      List.map_cons, List.map_map]
    congr 1
    · cases b <;>
        simp [byteOfBits, Nat.testBit_zero, Bool.toNat_false, Bool.toNat_true]
    · have hdiv : byteOfBits (b :: rest) / 2 = byteOfBits rest := by
        cases b <;>
          simp only [byteOfBits, Bool.toNat_false, Bool.toNat_true] <;> omega
      calc (List.range rest.length).map ((byteOfBits (b :: rest)).testBit ∘ Nat.succ)
          = (List.range rest.length).map (byteOfBits rest).testBit := by
            refine List.map_congr_left fun i _ => ?_
            simp only [Function.comp_apply, Nat.testBit_succ, hdiv]
        _ = rest := ih

/-- Null bitmap of the value columns: eight flags per byte, least significant
bit first, the final byte padded with zero bits. -/
def packBits : List Bool → List Nat
  | [] => []
  | b :: rest => byteOfBits ((b :: rest).take 8) :: packBits ((b :: rest).drop 8)
termination_by l => l.length
decreasing_by simp only [List.length_drop, List.length_cons]; omega

/-- Unpack a known number of flags from a bitmap. -/
def unpackBits : Nat → List Nat → List Bool
  | 0, _ => []
  | _ + 1, [] => []
  | n + 1, b :: rest => bitsOfByte (min (n + 1) 8) b ++ unpackBits (n + 1 - 8) rest

theorem unpack_packBits_aux (n : Nat) :
    ∀ (l : List Bool), l.length ≤ n → unpackBits l.length (packBits l) = l := by
  induction n with
  | zero =>
    intro l hl
    have : l = [] := List.length_eq_zero.mp (Nat.le_zero.mp hl)
    subst this
    simp [packBits, unpackBits]
  | succ n ih =>
    intro l hl
    cases l with
    | nil => simp [packBits, unpackBits]
    | cons b rest =>
      rw [packBits]
      rw [show (b :: rest).length = rest.length + 1 from rfl, unpackBits]
      have htake : ((b :: rest).take 8).length = min (rest.length + 1) 8 := by
        simp [List.length_take]
        omega
      have h1 : bitsOfByte (min (rest.length + 1) 8)
          (byteOfBits ((b :: rest).take 8)) = (b :: rest).take 8 := by
        rw [← htake, bitsOfByte_byteOfBits]
      have hdroplen : ((b :: rest).drop 8).length = rest.length + 1 - 8 := by
        simp [List.length_drop]
      have h2 : unpackBits (rest.length + 1 - 8) (packBits ((b :: rest).drop 8))
          = (b :: rest).drop 8 := by
        rw [← hdroplen]
        refine ih _ ?_
        simp only [List.length_cons] at hl
        simp [List.length_drop]
        omega
      rw [h1, h2, List.take_append_drop]

theorem unpack_packBits (l : List Bool) :
    unpackBits l.length (packBits l) = l :=
  unpack_packBits_aux l.length l le_rfl

theorem packBits_length_aux (n : Nat) :
    ∀ (l : List Bool), l.length ≤ n → (packBits l).length = (l.length + 7) / 8 := by
  induction n with
  | zero =>
    intro l hl
    have : l = [] := List.length_eq_zero.mp (Nat.le_zero.mp hl)
    subst this
    simp [packBits]
  | succ n ih =>
    intro l hl
    cases l with
    | nil => simp [packBits]
    | cons b rest =>
      rw [packBits]
      have hrec := ih ((b :: rest).drop 8) (by
        simp only [List.length_cons] at hl
        simp [List.length_drop]
        omega)
      simp only [List.length_cons, List.length_drop] at hrec ⊢
      rw [hrec]
      omega

theorem packBits_length (l : List Bool) :
    (packBits l).length = (l.length + 7) / 8 :=
  packBits_length_aux l.length l le_rfl

/-! ## Order-preserving group encoding of string key columns

The raw bytes are cut into chunks of eight; every completed chunk that has a
continuation is followed by the marker 0xFF, and the final chunk is padded
with zero bytes and followed by the marker 0xF8 minus the number of unused
padding bytes.  The helper carries the number of free slots left in the
current chunk. -/

/-- Group encoding helper; k is the remaining capacity of the current chunk. -/
def encGAux : Nat → List Nat → List Nat
  | k, [] => List.replicate k 0 ++ [0xF8 - k]
  | 0, b :: bs => 0xFF :: encGAux 8 (b :: bs)
  | k + 1, b :: bs => b :: encGAux k bs
termination_by k s => (s.length, 8 - k)

/-- Order-preserving group encoding of a byte string. -/
def encG (s : List Nat) : List Nat := encGAux 8 s

/-- Parse one group-encoded string, returning the raw bytes and the tail. -/
def parseGroups (bs : List Nat) : Option (List Nat × List Nat) :=
  if bs.length < 9 then none
  else
    let m := bs.getD 8 0
    if m = 0xFF then
      match parseGroups (bs.drop 9) with
      | some (s, r) => some (bs.take 8 ++ s, r)
      | none => none
    else if 0xF0 ≤ m ∧ m ≤ 0xF8 then some (bs.take (m - 0xF0), bs.drop 9)
    else none
termination_by bs.length
decreasing_by simp only [List.length_drop]; omega

theorem parseGroups_lastChunk (k : Nat) (pre r : List Nat) (hk : k ≤ 8)
    (hpre : pre.length + k = 8) :
    parseGroups (pre ++ (List.replicate k 0 ++ [0xF8 - k]) ++ r) = some (pre, r) := by
  have hfull : (pre ++ (List.replicate k 0 ++ [0xF8 - k])).length = 9 := by
    simp [List.length_append, List.length_replicate]
    omega
  have hassoc : pre ++ (List.replicate k 0 ++ [0xF8 - k]) ++ r
      = (pre ++ (List.replicate k 0 ++ [0xF8 - k])) ++ r := by
    simp [List.append_assoc]
  rw [parseGroups]
  have hlen : ¬ (pre ++ (List.replicate k 0 ++ [0xF8 - k]) ++ r).length < 9 := by
    rw [hassoc, List.length_append, hfull]
    omega
  rw [if_neg hlen]
  have hm : (pre ++ (List.replicate k 0 ++ [0xF8 - k]) ++ r).getD 8 0 = 0xF8 - k := by
    have h1 : (pre ++ List.replicate k 0).length = 8 := by
      simp [List.length_append, List.length_replicate]
      omega
    have : pre ++ (List.replicate k 0 ++ [0xF8 - k]) ++ r
        = (pre ++ List.replicate k 0) ++ ((0xF8 - k) :: r) := by
      simp [List.append_assoc]
    rw [this, List.getD_append_right _ _ _ _ h1.le]
    simp [h1]
  rw [hm]
  have hne : ¬ (0xF8 - k = 0xFF) := by omega
  rw [if_neg hne]
  have hrange : 0xF0 ≤ 0xF8 - k ∧ 0xF8 - k ≤ 0xF8 := by omega
  rw [if_pos hrange]
  have htake : (pre ++ (List.replicate k 0 ++ [0xF8 - k]) ++ r).take (0xF8 - k - 0xF0)
      = pre := by
    have h0 : 0xF8 - k - 0xF0 = pre.length := by omega
    rw [h0]
    have : pre ++ (List.replicate k 0 ++ [0xF8 - k]) ++ r
        = pre ++ ((List.replicate k 0 ++ [0xF8 - k]) ++ r) := by
      simp [List.append_assoc]
    rw [this, List.take_left]
  have hdrop : (pre ++ (List.replicate k 0 ++ [0xF8 - k]) ++ r).drop 9 = r := by
    rw [hassoc, List.drop_left' hfull]
  rw [htake, hdrop]

theorem parseGroups_encAux (M : Nat) :
    ∀ (k : Nat) (s pre r : List Nat), 9 * s.length + (8 - k) ≤ M →
      pre.length + k = 8 →
      parseGroups (pre ++ encGAux k s ++ r) = some (pre ++ s, r) := by
  induction M with
  | zero =>
    intro k s pre r hM hpre
    have hs : s.length = 0 := by omega
    have hk : k = 8 := by omega
    have hs2 : s = [] := List.length_eq_zero.mp hs
    subst hs2 hk
    rw [encGAux]
    have := parseGroups_lastChunk 8 pre r (by omega) hpre
    simpa using this
  | succ M ih =>
    intro k s pre r hM hpre
    cases s with
    | nil =>
      rw [encGAux]
      have := parseGroups_lastChunk k pre r (by omega) hpre
      simpa using this
    | cons b bs =>
      cases k with
      | zero =>
        have hpre8 : pre.length = 8 := by omega
        rw [encGAux]
        have hsplit : pre ++ (0xFF :: encGAux 8 (b :: bs)) ++ r
            = (pre ++ [0xFF]) ++ (encGAux 8 (b :: bs) ++ r) := by
          simp [List.append_assoc]
        rw [parseGroups]
        have hlen9 : (pre ++ [0xFF]).length = 9 := by simp [hpre8]
        have hlen : ¬ (pre ++ (0xFF :: encGAux 8 (b :: bs)) ++ r).length < 9 := by
          rw [hsplit, List.length_append, hlen9]
          omega
        rw [if_neg hlen]
        have hm : (pre ++ (0xFF :: encGAux 8 (b :: bs)) ++ r).getD 8 0 = 0xFF := by
          have : pre ++ (0xFF :: encGAux 8 (b :: bs)) ++ r
              = pre ++ (0xFF :: (encGAux 8 (b :: bs) ++ r)) := by
            simp [List.append_assoc]
          rw [this, List.getD_append_right _ _ _ _ hpre8.le]
          simp [hpre8]
        rw [hm, if_pos rfl]
        have hdrop : (pre ++ (0xFF :: encGAux 8 (b :: bs)) ++ r).drop 9
            = encGAux 8 (b :: bs) ++ r := by
          rw [hsplit, List.drop_left' hlen9]
        have hrec : parseGroups (encGAux 8 (b :: bs) ++ r) = some (b :: bs, r) := by
          have h0 : ([] : List Nat).length + 8 = 8 := by simp
          have := ih 8 (b :: bs) [] r (by
            simp only [List.length_cons] at hM ⊢
            omega) h0
          simpa using this
        rw [hdrop, hrec]
        have htake : (pre ++ (0xFF :: encGAux 8 (b :: bs)) ++ r).take 8 = pre := by
          have : pre ++ (0xFF :: encGAux 8 (b :: bs)) ++ r
              = pre ++ (0xFF :: (encGAux 8 (b :: bs) ++ r)) := by
            simp [List.append_assoc]
          rw [this, ← hpre8, List.take_left]
        rw [htake]
      | succ k =>
        rw [encGAux]
        have hsplit : pre ++ (b :: encGAux k bs) ++ r
            = (pre ++ [b]) ++ encGAux k bs ++ r := by
          simp [List.append_assoc]
        rw [hsplit]
        have hrec := ih k bs (pre ++ [b]) r (by
          simp only [List.length_cons] at hM
          omega) (by simp at hpre ⊢; omega)
        rw [hrec]
        simp

/-- Round trip of the group encoding: parsing the encoding of a byte string
returns the byte string and leaves the tail untouched. -/
theorem parseGroups_encG (s r : List Nat) :
    parseGroups (encG s ++ r) = some (s, r) := by
  have := parseGroups_encAux (9 * s.length + 8) 8 s [] r (by omega) (by simp)
  simpa [encG] using this

theorem encGAux_div_pad : ∀ (k : Nat) (t : List Nat) (m : Nat), m < 0xF8 - k →
    bytesDiv (List.replicate k 0 ++ [m]) (encGAux k t) = true := by
  intro k
  induction k with
  | zero =>
    intro t m hm
    cases t with
    | nil =>
      rw [encGAux]
      simp only [List.replicate_zero, List.nil_append, bytesDiv]
      simp
      omega
    | cons b bs =>
      rw [encGAux]
      simp only [List.replicate_zero, List.nil_append, bytesDiv]
      simp
      omega
  | succ k ih =>
    intro t m hm
    cases t with
    | nil =>
      rw [encGAux]
      simp only [List.replicate_succ, List.cons_append, bytesDiv,
        Bool.or_eq_true, decide_eq_true_eq, Bool.and_eq_true]
      right
      refine ⟨by trivial, ?_⟩
      exact bytesDiv_cancel (List.replicate k 0) (by
        simp only [bytesDiv, Bool.or_eq_true, decide_eq_true_eq]
        left
        omega)
    | cons b bs =>
      rw [encGAux]
      simp only [List.replicate_succ, List.cons_append, bytesDiv,
        Bool.or_eq_true, decide_eq_true_eq, Bool.and_eq_true]
      rcases Nat.eq_zero_or_pos b with hb | hb
      · subst hb
        right
        exact ⟨rfl, ih bs m (by omega)⟩
      · left
        omega

theorem encGAux_mono (M : Nat) :
    ∀ (k : Nat) (s t : List Nat), 9 * s.length + (8 - k) ≤ M → k ≤ 8 →
      bytesLtB s t = true → bytesDiv (encGAux k s) (encGAux k t) = true := by
  induction M with
  | zero =>
    intro k s t hM hk hlt
    have hs : s = [] := List.length_eq_zero.mp (by omega)
    have hk8 : k = 8 := by omega
    subst hs hk8
    cases t with
    | nil => simp [bytesLtB] at hlt
    | cons b bs =>
      rw [encGAux, encGAux]
      simp only [List.replicate_succ, List.cons_append, bytesDiv,
        Bool.or_eq_true, decide_eq_true_eq, Bool.and_eq_true]
      rcases Nat.eq_zero_or_pos b with hb | hb
      · subst hb
        right
        refine ⟨rfl, ?_⟩
        exact encGAux_div_pad 7 bs (0xF8 - 8) (by omega)
      · left
        omega
  | succ M ih =>
    intro k s t hM hk hlt
    cases s with
    | nil =>
      cases t with
      | nil => simp [bytesLtB] at hlt
      | cons b bs =>
        cases k with
        | zero =>
          rw [encGAux, encGAux]
          simp only [List.replicate_zero, List.nil_append, bytesDiv,
            Bool.or_eq_true, decide_eq_true_eq]
          left
          omega
        | succ k =>
          rw [encGAux, encGAux]
          simp only [List.replicate_succ, List.cons_append, bytesDiv,
            Bool.or_eq_true, decide_eq_true_eq, Bool.and_eq_true]
          rcases Nat.eq_zero_or_pos b with hb | hb
          · subst hb
            right
            refine ⟨rfl, ?_⟩
            exact encGAux_div_pad k bs (0xF8 - (k + 1)) (by omega)
          · left
            omega
    | cons a as =>
      cases t with
      | nil => simp [bytesLtB] at hlt
      | cons b bs =>
        cases k with
        | zero =>
          rw [encGAux, encGAux]
          simp only [bytesDiv, Bool.or_eq_true, decide_eq_true_eq,
            Bool.and_eq_true]
          right
          refine ⟨by trivial, ?_⟩
          refine ih 8 (a :: as) (b :: bs) ?_ (by omega) hlt
          simp only [List.length_cons] at hM ⊢
          omega
        | succ k =>
          rw [encGAux, encGAux]
          simp only [bytesLtB, Bool.or_eq_true, decide_eq_true_eq,
            Bool.and_eq_true] at hlt
          simp only [bytesDiv, Bool.or_eq_true, decide_eq_true_eq,
            Bool.and_eq_true]
          rcases hlt with hab | ⟨hab, hrest⟩
          · exact Or.inl hab
          · subst hab
            right
            refine ⟨rfl, ?_⟩
            refine ih k as bs ?_ (by omega) hrest
            simp only [List.length_cons] at hM
            omega

/-- Order preservation of the group encoding: a strictly smaller byte string
has an encoding that diverges below the encoding of the larger one. -/
theorem encG_mono {s t : List Nat} (h : bytesLtB s t = true) :
    bytesDiv (encG s) (encG t) = true :=
  encGAux_mono (9 * s.length + 8) 8 s t (by omega) (by omega) h

/-! ## The data model: column types and nullable cells

Modelled from the spec: the six column types BOOL, INT32, INT64, FLOAT32,
FLOAT64, STRING, each independently nullable.  A cell is a runtime-typed
optional value; floating point cells carry the raw IEEE-754 bit pattern as a
natural number below 2 to the width. -/

/-- Semantic column types of the coprocessor schema. -/
inductive ColType
  | tBool | tInt32 | tInt64 | tFloat32 | tFloat64 | tString
deriving DecidableEq

/-- Runtime-typed nullable cell of a tuple. -/
inductive Cell
  | b (v : Option Bool)
  | i32 (v : Option Int)
  | i64 (v : Option Int)
  | f32 (v : Option Nat)
  | f64 (v : Option Nat)
  | str (v : Option (List Nat))
deriving DecidableEq

/-- Dynamic type tag of a cell. -/
def cellTy : Cell → ColType
  | .b _ => .tBool
  | .i32 _ => .tInt32
  | .i64 _ => .tInt64
  | .f32 _ => .tFloat32
  | .f64 _ => .tFloat64
  | .str _ => .tString

/-- Whether the cell holds the null value. -/
def cellIsNull : Cell → Bool
  | .b none | .i32 none | .i64 none | .f32 none | .f64 none | .str none => true
  | _ => false

/-- The null cell of a given column type. -/
def nullCellOf : ColType → Cell
  | .tBool => .b none
  | .tInt32 => .i32 none
  | .tInt64 => .i64 none
  | .tFloat32 => .f32 none
  | .tFloat64 => .f64 none
  | .tString => .str none

/-- Range side conditions of a well-typed cell: machine integers lie in the
two-complement range of their width and float bit patterns fit the width. -/
def cellWT : Cell → Bool
  | .i32 (some v) => decide (-(2 ^ 31) ≤ v ∧ v < 2 ^ 31)
  | .i64 (some v) => decide (-(2 ^ 63) ≤ v ∧ v < 2 ^ 63)
  | .f32 (some w) => decide (w < 2 ^ 32)
  | .f64 (some w) => decide (w < 2 ^ 64)
  | _ => true

theorem nullCell_eq {x : Cell} {ty : ColType} (hnull : cellIsNull x = true)
    (hty : cellTy x = ty) : x = nullCellOf ty := by
  cases x <;> rename_i v <;> cases v <;> simp [cellIsNull] at hnull <;>
    simp [cellTy] at hty <;> subst hty <;> rfl

/-! ## IEEE-754 order flip for key encoding

Modelled from the spec: take the big-endian bits; if the sign bit is set,
bitwise-NOT all bits, otherwise flip only the sign bit.  On bit patterns below
2 to the width this is the map below, and it carries the IEEE sign-magnitude
total order onto the natural order. -/

/-- Sign flip of a float bit pattern for the memcmp-comparable key encoding. -/
def flipF (width w : Nat) : Nat :=
  if w < 2 ^ (width - 1) then w + 2 ^ (width - 1) else 2 ^ width - 1 - w

/-- Inverse of the sign flip, used by the decoder. -/
def unflipF (width u : Nat) : Nat :=
  if u < 2 ^ (width - 1) then 2 ^ width - 1 - u else u - 2 ^ (width - 1)

/-- IEEE-754 total order on bit patterns: the sign bit decides first, negative
patterns order by descending magnitude bits. -/
def ieeeLtB (width a b : Nat) : Bool :=
  if a < 2 ^ (width - 1) then decide (b < 2 ^ (width - 1)) && decide (a < b)
  else decide (b < 2 ^ (width - 1)) || decide (b < a)

theorem pow_split {width : Nat} (hw : 0 < width) :
    2 ^ width = 2 * 2 ^ (width - 1) := by
  conv_lhs => rw [show width = (width - 1) + 1 by omega]
  rw [pow_succ]
  ring

theorem unflipF_flipF {width w : Nat} (hw : 0 < width) (h : w < 2 ^ width) :
    unflipF width (flipF width w) = w := by
  have h2 := pow_split hw
  unfold flipF unflipF
  by_cases hlt : w < 2 ^ (width - 1)
  · rw [if_pos hlt, if_neg (by omega)]
    omega
  · rw [if_neg hlt, if_pos (by omega)]
    omega

theorem flipF_lt {width w : Nat} (hw : 0 < width) (h : w < 2 ^ width) :
    flipF width w < 2 ^ width := by
  have h2 := pow_split hw
  unfold flipF
  by_cases hlt : w < 2 ^ (width - 1) <;> simp [hlt] <;> omega

theorem flipF_mono {width a b : Nat} (hw : 0 < width) (ha : a < 2 ^ width)
    (hb : b < 2 ^ width) (h : ieeeLtB width a b = true) :
    flipF width a < flipF width b := by
  have h2 := pow_split hw
  unfold ieeeLtB at h
  unfold flipF
  by_cases hla : a < 2 ^ (width - 1)
  · rw [if_pos hla] at h
    simp only [Bool.and_eq_true, decide_eq_true_eq] at h
    rw [if_pos hla, if_pos h.1]
    omega
  · rw [if_neg hla] at h
    simp only [Bool.or_eq_true, decide_eq_true_eq] at h
    rw [if_neg hla]
    rcases h with hlb | hba
    · rw [if_pos hlb]
      omega
    · by_cases hlb : b < 2 ^ (width - 1)
      · rw [if_pos hlb]
        omega
      · rw [if_neg hlb]
        omega

/-! ## Key cell codec

Modelled from the spec: every key cell is written with a leading tag byte, 0
for null and 1 for a present value, so that nullable key nulls sort strictly
before any non-null value.  Integers are big-endian with the sign offset,
floats are the flipped bit pattern big-endian, booleans one byte, strings the
group encoding. -/

/-- Order-preserving payload bytes of a non-null key cell. -/
def keyPayload : Cell → List Nat
  | .b (some v) => [v.toNat]
  | .i32 (some v) => toBE 4 (v + 2 ^ 31).toNat
  | .i64 (some v) => toBE 8 (v + 2 ^ 63).toNat
  | .f32 (some w) => toBE 4 (flipF 32 w)
  | .f64 (some w) => toBE 8 (flipF 64 w)
  | .str (some s) => encG s
  | _ => []

/-- Key encoding of one cell: a null tag byte followed by the payload. -/
def encKeyCell (c : Cell) : List Nat :=
  if cellIsNull c then [0] else 1 :: keyPayload c

/-- Parse the payload of one non-null key cell of a declared column type. -/
def parseKeyPayload : ColType → List Nat → Option (Cell × List Nat)
  | .tBool, [] => none
  | .tBool, v :: r => some (.b (some (v == 1)), r)
  | .tInt32, bs => (fromBE 4 bs).map fun p => (.i32 (some ((p.1 : Int) - 2 ^ 31)), p.2)
  | .tInt64, bs => (fromBE 8 bs).map fun p => (.i64 (some ((p.1 : Int) - 2 ^ 63)), p.2)
  | .tFloat32, bs => (fromBE 4 bs).map fun p => (.f32 (some (unflipF 32 p.1)), p.2)
  | .tFloat64, bs => (fromBE 8 bs).map fun p => (.f64 (some (unflipF 64 p.1)), p.2)
  | .tString, bs => (parseGroups bs).map fun p => (.str (some p.1), p.2)

/-- Parse one key cell of the given declared column type. -/
def parseKeyCell (ty : ColType) : List Nat → Option (Cell × List Nat)
  | [] => none
  | tag :: rest =>
    if tag = 0 then some (nullCellOf ty, rest)
    else if tag = 1 then parseKeyPayload ty rest
    else none

theorem parseKeyCell_enc {c : Cell} (hwt : cellWT c = true) (r : List Nat) :
    parseKeyCell (cellTy c) (encKeyCell c ++ r) = some (c, r) := by
  cases c with
  | b v =>
    cases v with
    | none => simp [encKeyCell, cellIsNull, parseKeyCell, cellTy, nullCellOf]
    | some x =>
      cases x <;>
        simp [encKeyCell, cellIsNull, parseKeyCell, parseKeyPayload, cellTy,
          keyPayload]
  | i32 v =>
    cases v with
    | none => simp [encKeyCell, cellIsNull, parseKeyCell, cellTy, nullCellOf]
    | some x =>
      simp only [cellWT, decide_eq_true_eq] at hwt
      have hnat : (x + 2147483648).toNat < 256 ^ 4 := by
        have h4 : (256 : Nat) ^ 4 = 4294967296 := by norm_num
        omega
      simp [encKeyCell, cellIsNull, keyPayload, cellTy, parseKeyCell,
        parseKeyPayload]
      exact ⟨(x + 2147483648).toNat, fromBE_toBE 4 hnat r, by omega⟩
  | i64 v =>
    cases v with
    | none => simp [encKeyCell, cellIsNull, parseKeyCell, cellTy, nullCellOf]
    | some x =>
      simp only [cellWT, decide_eq_true_eq] at hwt
      have hnat : (x + 9223372036854775808).toNat < 256 ^ 8 := by
        have h8 : (256 : Nat) ^ 8 = 18446744073709551616 := by norm_num
        omega
      simp [encKeyCell, cellIsNull, keyPayload, cellTy, parseKeyCell,
        parseKeyPayload]
      exact ⟨(x + 9223372036854775808).toNat, fromBE_toBE 8 hnat r, by omega⟩
  | f32 v =>
    cases v with
    | none => simp [encKeyCell, cellIsNull, parseKeyCell, cellTy, nullCellOf]
    | some x =>
      simp only [cellWT, decide_eq_true_eq] at hwt
      have hflt : flipF 32 x < 256 ^ 4 := by
        have h4 : (256 : Nat) ^ 4 = 2 ^ 32 := by norm_num
        rw [h4]
        exact flipF_lt (by norm_num) hwt
      simp [encKeyCell, cellIsNull, keyPayload, cellTy, parseKeyCell,
        parseKeyPayload, fromBE_toBE 4 hflt, unflipF_flipF (by norm_num) hwt]
  | f64 v =>
    cases v with
    | none => simp [encKeyCell, cellIsNull, parseKeyCell, cellTy, nullCellOf]
    | some x =>
      simp only [cellWT, decide_eq_true_eq] at hwt
      have hflt : flipF 64 x < 256 ^ 8 := by
        have h8 : (256 : Nat) ^ 8 = 2 ^ 64 := by norm_num
        rw [h8]
        exact flipF_lt (by norm_num) hwt
      simp [encKeyCell, cellIsNull, keyPayload, cellTy, parseKeyCell,
        parseKeyPayload, fromBE_toBE 8 hflt, unflipF_flipF (by norm_num) hwt]
  | str v =>
    cases v with
    | none => simp [encKeyCell, cellIsNull, parseKeyCell, cellTy, nullCellOf]
    | some s =>
      simp [encKeyCell, cellIsNull, keyPayload, cellTy, parseKeyCell,
        parseKeyPayload, parseGroups_encG]

/-! ## Cell order and order preservation of the key cell codec -/

/-- Lift a strict order on values to nullable cells: null sorts strictly
before any non-null value. -/
def optLtB {α : Type} (lt : α → α → Bool) : Option α → Option α → Bool
  | none, some _ => true
  | some x, some y => lt x y
  | _, _ => false

/-- Strict order of two same-typed cells, per the declared column order:
boolean false before true, numeric order for integers, the IEEE-754 total
order on bit patterns for floats, lexicographic order for strings, null
first everywhere. -/
def cellLtB : Cell → Cell → Bool
  | .b v1, .b v2 => optLtB (fun x y => !x && y) v1 v2
  | .i32 v1, .i32 v2 => optLtB (fun x y => decide (x < y)) v1 v2
  | .i64 v1, .i64 v2 => optLtB (fun x y => decide (x < y)) v1 v2
  | .f32 v1, .f32 v2 => optLtB (ieeeLtB 32) v1 v2
  | .f64 v1, .f64 v2 => optLtB (ieeeLtB 64) v1 v2
  | .str v1, .str v2 => optLtB bytesLtB v1 v2
  | _, _ => false

theorem encKeyCell_div {c1 c2 : Cell} (h1 : cellWT c1 = true)
    (h2 : cellWT c2 = true) (hlt : cellLtB c1 c2 = true) :
    bytesDiv (encKeyCell c1) (encKeyCell c2) = true := by
  cases c1 <;> cases c2 <;> try simp [cellLtB] at hlt
  case b.b v1 v2 =>
    match v1, v2 with
    | none, none => simp [optLtB] at hlt
    | some x, none => simp [optLtB] at hlt
    | none, some y => cases y <;> decide
    | some x, some y =>
      simp only [optLtB, Bool.and_eq_true, Bool.not_eq_true'] at hlt
      rw [hlt.1, hlt.2]
      decide
  case i32.i32 v1 v2 =>
    match v1, v2 with
    | none, none => simp [optLtB] at hlt
    | some x, none => simp [optLtB] at hlt
    | none, some y => simp [encKeyCell, cellIsNull, bytesDiv]
    | some x, some y =>
      simp only [optLtB, decide_eq_true_eq] at hlt
      simp only [cellWT, decide_eq_true_eq] at h1 h2
      have e1 : encKeyCell (Cell.i32 (some x)) = [1] ++ toBE 4 (x + 2 ^ 31).toNat := rfl
      have e2 : encKeyCell (Cell.i32 (some y)) = [1] ++ toBE 4 (y + 2 ^ 31).toNat := rfl
      rw [e1, e2]
      refine bytesDiv_cancel [1] (toBE_mono 4 (by omega) ?_)
      have h4 : (256 : Nat) ^ 4 = 4294967296 := by norm_num
      omega
  case i64.i64 v1 v2 =>
    match v1, v2 with
    | none, none => simp [optLtB] at hlt
    | some x, none => simp [optLtB] at hlt
    | none, some y => simp [encKeyCell, cellIsNull, bytesDiv]
    | some x, some y =>
      simp only [optLtB, decide_eq_true_eq] at hlt
      simp only [cellWT, decide_eq_true_eq] at h1 h2
      have e1 : encKeyCell (Cell.i64 (some x)) = [1] ++ toBE 8 (x + 2 ^ 63).toNat := rfl
      have e2 : encKeyCell (Cell.i64 (some y)) = [1] ++ toBE 8 (y + 2 ^ 63).toNat := rfl
      rw [e1, e2]
      refine bytesDiv_cancel [1] (toBE_mono 8 (by omega) ?_)
      have h8 : (256 : Nat) ^ 8 = 18446744073709551616 := by norm_num
      omega
  case f32.f32 v1 v2 =>
    match v1, v2 with
    | none, none => simp [optLtB] at hlt
    | some x, none => simp [optLtB] at hlt
    | none, some y => simp [encKeyCell, cellIsNull, bytesDiv]
    | some x, some y =>
      simp only [optLtB] at hlt
      simp only [cellWT, decide_eq_true_eq] at h1 h2
      have e1 : encKeyCell (Cell.f32 (some x)) = [1] ++ toBE 4 (flipF 32 x) := rfl
      have e2 : encKeyCell (Cell.f32 (some y)) = [1] ++ toBE 4 (flipF 32 y) := rfl
      rw [e1, e2]
      refine bytesDiv_cancel [1] (toBE_mono 4
        (flipF_mono (by norm_num) h1 h2 hlt) ?_)
      have h4 : (256 : Nat) ^ 4 = 2 ^ 32 := by norm_num
      rw [h4]
      exact flipF_lt (by norm_num) h2
  case f64.f64 v1 v2 =>
    match v1, v2 with
    | none, none => simp [optLtB] at hlt
    | some x, none => simp [optLtB] at hlt
    | none, some y => simp [encKeyCell, cellIsNull, bytesDiv]
    | some x, some y =>
      simp only [optLtB] at hlt
      simp only [cellWT, decide_eq_true_eq] at h1 h2
      have e1 : encKeyCell (Cell.f64 (some x)) = [1] ++ toBE 8 (flipF 64 x) := rfl
      have e2 : encKeyCell (Cell.f64 (some y)) = [1] ++ toBE 8 (flipF 64 y) := rfl
      rw [e1, e2]
      refine bytesDiv_cancel [1] (toBE_mono 8
        (flipF_mono (by norm_num) h1 h2 hlt) ?_)
      have h8 : (256 : Nat) ^ 8 = 2 ^ 64 := by norm_num
      rw [h8]
      exact flipF_lt (by norm_num) h2
  case str.str v1 v2 =>
    match v1, v2 with
    | none, none => simp [optLtB] at hlt
    | some x, none => simp [optLtB] at hlt
    | none, some y => simp [encKeyCell, cellIsNull, bytesDiv]
    | some x, some y =>
      simp only [optLtB] at hlt
      have e1 : encKeyCell (Cell.str (some x)) = [1] ++ encG x := rfl
      have e2 : encKeyCell (Cell.str (some y)) = [1] ++ encG y := rfl
      rw [e1, e2]
      exact bytesDiv_cancel [1] (encG_mono hlt)

/-! ## Value cell codec

Modelled from the spec: the value part is not order preserving; integers are
fixed-width native-endian two-complement, floats the raw bit pattern, strings
a varint length followed by the raw bytes.  Nulls are recorded in the null
bitmap and contribute no payload bytes. -/

/-- Payload bytes of a non-null cell in the value part. -/
def valPayload : Cell → List Nat
  | .b (some v) => [v.toNat]
  | .i32 (some v) => toLE 4 (v % 4294967296).toNat
  | .i64 (some v) => toLE 8 (v % 18446744073709551616).toNat
  | .f32 (some w) => toLE 4 w
  | .f64 (some w) => toLE 8 w
  | .str (some s) => encVarint s.length ++ s
  | _ => []

/-- Value-part encoding of one cell: nothing for null, the payload otherwise. -/
def encValCell (c : Cell) : List Nat :=
  if cellIsNull c then [] else valPayload c

/-- Parse the payload of one non-null cell in the value part. -/
def parseValPayload : ColType → List Nat → Option (Cell × List Nat)
  | .tBool, [] => none
  | .tBool, v :: r => some (.b (some (v == 1)), r)
  | .tInt32, bs => (fromLE 4 bs).map fun p =>
      (.i32 (some (if p.1 < 2147483648 then (p.1 : Int) else (p.1 : Int) - 4294967296)), p.2)
  | .tInt64, bs => (fromLE 8 bs).map fun p =>
      (.i64 (some (if p.1 < 9223372036854775808 then (p.1 : Int)
        else (p.1 : Int) - 18446744073709551616)), p.2)
  | .tFloat32, bs => (fromLE 4 bs).map fun p => (.f32 (some p.1), p.2)
  | .tFloat64, bs => (fromLE 8 bs).map fun p => (.f64 (some p.1), p.2)
  | .tString, bs =>
    match parseVarint bs with
    | none => none
    | some (n, r) =>
      if n ≤ r.length then some (.str (some (r.take n)), r.drop n) else none

theorem parseValPayload_enc {c : Cell} (hnn : cellIsNull c = false)
    (hwt : cellWT c = true) (r : List Nat) :
    parseValPayload (cellTy c) (valPayload c ++ r) = some (c, r) := by
  cases c with
  | b v =>
    cases v with
    | none => simp [cellIsNull] at hnn
    | some x => cases x <;> simp [valPayload, cellTy, parseValPayload]
  | i32 v =>
    cases v with
    | none => simp [cellIsNull] at hnn
    | some x =>
      simp only [cellWT, decide_eq_true_eq] at hwt
      have hnat : (x % 4294967296).toNat < 256 ^ 4 := by
        have h4 : (256 : Nat) ^ 4 = 4294967296 := by norm_num
        omega
      simp only [valPayload, cellTy, parseValPayload,
        fromLE_toLE 4 hnat, Option.map_some']
      simp only [Option.some.injEq, Prod.mk.injEq, Cell.i32.injEq]
      refine ⟨?_, trivial⟩
      split_ifs <;> omega
  | i64 v =>
    cases v with
    | none => simp [cellIsNull] at hnn
    | some x =>
      simp only [cellWT, decide_eq_true_eq] at hwt
      have hnat : (x % 18446744073709551616).toNat < 256 ^ 8 := by
        have h8 : (256 : Nat) ^ 8 = 18446744073709551616 := by norm_num
        omega
      simp only [valPayload, cellTy, parseValPayload,
        fromLE_toLE 8 hnat, Option.map_some']
      simp only [Option.some.injEq, Prod.mk.injEq, Cell.i64.injEq]
      refine ⟨?_, trivial⟩
      split_ifs <;> omega
  | f32 v =>
    cases v with
    | none => simp [cellIsNull] at hnn
    | some x =>
      simp only [cellWT, decide_eq_true_eq] at hwt
      have hnat : x < 256 ^ 4 := by
        have h4 : (256 : Nat) ^ 4 = 2 ^ 32 := by norm_num
        omega
      simp [valPayload, cellTy, parseValPayload, fromLE_toLE 4 hnat]
  | f64 v =>
    cases v with
    | none => simp [cellIsNull] at hnn
    | some x =>
      simp only [cellWT, decide_eq_true_eq] at hwt
      have hnat : x < 256 ^ 8 := by
        have h8 : (256 : Nat) ^ 8 = 2 ^ 64 := by norm_num
        omega
      simp [valPayload, cellTy, parseValPayload, fromLE_toLE 8 hnat]
  | str v =>
    cases v with
    | none => simp [cellIsNull] at hnn
    | some s =>
      simp only [valPayload, cellTy, parseValPayload, List.append_assoc,
        parseVarint_enc s.length (s ++ r)]
      rw [if_pos (by simp [List.length_append])]
      rw [List.take_left' rfl, List.drop_left' rfl]

/-! ## Schemas and records

Modelled from the spec: a schema is an ordered list of column descriptors,
each carrying the semantic type, the key flag, the nullability flag and the
physical index of the column in the serialized tuple; a tuple is a vector of
cells, one per logical column.  Within a valid schema every physical index is
unique and lies below the column count. -/

/-- One column descriptor of a schema. -/
structure ColDesc where
  typ : ColType
  isKey : Bool
  nullable : Bool
  idx : Nat
deriving DecidableEq

/-- Well-typedness of one cell against its column: the dynamic tag matches the
declared type, the range side conditions hold, and a null is only stored in a
nullable column. -/
def wtCellForCol (c : ColDesc) (x : Cell) : Bool :=
  decide (cellTy x = c.typ) && cellWT x && (!(cellIsNull x) || c.nullable)

/-- Well-typedness of a tuple against a schema. -/
def wellTypedB (S : List ColDesc) (t : List Cell) : Bool :=
  decide (t.length = S.length) && (S.zip t).all fun q => wtCellForCol q.1 q.2

/-- Schema invariant: physical indices are unique and lie below the column
count. -/
def validSchemaB (S : List ColDesc) : Bool :=
  decide (S.map (fun c => c.idx)).Nodup && S.all fun c => decide (c.idx < S.length)

/-- The descriptor and cell pairs of a tuple in ascending physical order. -/
def physList (S : List ColDesc) (t : List Cell) : List (ColDesc × Cell) :=
  (List.range S.length).filterMap fun i => (S.zip t).find? fun q => decide (q.1.idx = i)

/-- The descriptors of a schema in ascending physical order. -/
def physCols (S : List ColDesc) : List ColDesc :=
  (List.range S.length).filterMap fun i => S.find? fun c => decide (c.idx = i)

/-- Key columns with their cells, ascending physical order. -/
def keyPairs (S : List ColDesc) (t : List Cell) : List (ColDesc × Cell) :=
  (physList S t).filter fun q => q.1.isKey

/-- Value columns with their cells, ascending physical order. -/
def valPairs (S : List ColDesc) (t : List Cell) : List (ColDesc × Cell) :=
  (physList S t).filter fun q => !q.1.isKey

/-- Key column descriptors in ascending physical order. -/
def keyCols (S : List ColDesc) : List ColDesc :=
  (physCols S).filter fun c => c.isKey

/-- Value column descriptors in ascending physical order. -/
def valCols (S : List ColDesc) : List ColDesc :=
  (physCols S).filter fun c => !c.isKey

/-- Concatenated cell encodings of a descriptor and cell list. -/
def encCells (f : Cell → List Nat) : List (ColDesc × Cell) → List Nat
  | [] => []
  | q :: rest => f q.2 ++ encCells f rest

/-- Fixed key prefix data of one table: namespace byte, common id and schema
version. -/
structure RecMeta where
  ns : Nat
  commonId : Nat
  version : Nat
deriving DecidableEq

/-- Fixed header of every key: namespace byte, big-endian common id,
big-endian schema version. -/
def header (m : RecMeta) : List Nat :=
  m.ns :: (toBE 8 m.commonId ++ toBE 4 m.version)

/-- Modelled from the spec: RecordEncoder.Encode.  The key part is the header,
the key columns in ascending physical order in the order-preserving cell
encoding, and the trailing tail byte zero; the value part is the null bitmap
of the value columns followed by the packed non-null payloads in ascending
physical order. -/
def encodeRecord (m : RecMeta) (S : List ColDesc) (t : List Cell) :
    List Nat × List Nat :=
  (header m ++ encCells encKeyCell (keyPairs S t) ++ [0],
   packBits ((valPairs S t).map fun q => cellIsNull q.2)
     ++ encCells encValCell (valPairs S t))

/-- Parse the key cells of the given descriptors in order. -/
def parseKeyCells : List ColDesc → List Nat → Option (List Cell × List Nat)
  | [], bs => some ([], bs)
  | c :: cs, bs =>
    (parseKeyCell c.typ bs).bind fun p =>
      (parseKeyCells cs p.2).map fun q => (p.1 :: q.1, q.2)

/-- Parse the value cells of the given descriptors, driven by the null
bitmap flags. -/
def parseValCells : List ColDesc → List Bool → List Nat → Option (List Cell × List Nat)
  | [], _, bs => some ([], bs)
  | _ :: _, [], _ => none
  | c :: cs, bit :: bits, bs =>
    if bit then
      (parseValCells cs bits bs).map fun q => (nullCellOf c.typ :: q.1, q.2)
    else
      (parseValPayload c.typ bs).bind fun p =>
        (parseValCells cs bits p.2).map fun q => (p.1 :: q.1, q.2)

/-- Reassemble the logical tuple from decoded physical pairs, looking every
logical column up by its physical index. -/
def rebuild : List ColDesc → List (ColDesc × Cell) → Option (List Cell)
  | [], _ => some []
  | c :: cs, pairs =>
    ((pairs.find? fun q => decide (q.1.idx = c.idx)).map Prod.snd).bind fun x =>
      (rebuild cs pairs).map fun xs => x :: xs

/-- Modelled from the spec: RecordDecoder.Decode.  Checks the header, parses
the key columns and the tail byte, unpacks the null bitmap, parses the value
columns and reassembles the logical tuple. -/
def decodeRecord (m : RecMeta) (S : List ColDesc) (kv : List Nat × List Nat) :
    Option (List Cell) :=
  if kv.1.take 13 = header m then
    (parseKeyCells (keyCols S) (kv.1.drop 13)).bind fun pk =>
      if pk.2 = [0] then
        (parseValCells (valCols S)
            (unpackBits (valCols S).length (kv.2.take (((valCols S).length + 7) / 8)))
            (kv.2.drop (((valCols S).length + 7) / 8))).bind fun pv =>
          if pv.2 = [] then
            rebuild S ((keyCols S).zip pk.1 ++ (valCols S).zip pv.1)
          else none
      else none
  else none

/-! ## Round trip of the record codec -/

theorem find?_eq_some_unique {α : Type} {p : α → Bool} {l : List α} {a : α}
    (ha : a ∈ l) (hpa : p a = true) (uniq : ∀ b ∈ l, p b = true → b = a) :
    l.find? p = some a := by
  induction l with
  | nil => simp at ha
  | cons x xs ih =>
    by_cases hx : p x = true
    · rw [List.find?_cons_of_pos xs hx]
      exact congrArg some (uniq x (by simp) hx)
    · rw [List.find?_cons_of_neg xs hx]
      refine ih ?_ fun b hb hpb => uniq b (List.mem_cons_of_mem x hb) hpb
      rcases List.mem_cons.mp ha with h | h
      · subst h
        exact absurd hpa hx
      · exact h

theorem find?_zip_fst (i : Nat) : ∀ (S : List ColDesc) (t : List Cell),
    t.length = S.length →
    ((S.zip t).find? fun q => decide (q.1.idx = i)).map Prod.fst
      = S.find? fun c => decide (c.idx = i) := by
  intro S
  induction S with
  | nil =>
    intro t h
    simp
  | cons c cs ih =>
    intro t h
    cases t with
    | nil => simp at h
    | cons x xs =>
      simp only [List.zip_cons_cons, List.find?]
      by_cases hc : c.idx = i
      · simp [hc]
      · rw [decide_eq_false hc]
        exact ih xs (by simpa using h)

theorem zip_elem_unique {S : List ColDesc} {t : List Cell} {j : Nat}
    (hnd : (S.map fun c => c.idx).Nodup) (hlen : t.length = S.length)
    (hj : j < S.length) :
    ∀ b ∈ S.zip t, (fun q : ColDesc × Cell => decide (q.1.idx = S[j].idx)) b = true →
      b = (S[j], t.get ⟨j, by omega⟩) := by
  intro b hb hpb
  obtain ⟨k, hk, hkb⟩ := List.mem_iff_getElem.mp hb
  have hkS : k < S.length := by
    rw [List.length_zip] at hk
    omega
  have hkt : k < t.length := by omega
  have hzip : (S.zip t)[k] = (S[k], t[k]) := List.getElem_zip
  rw [hzip] at hkb
  subst hkb
  simp only [decide_eq_true_eq] at hpb
  have hinj := List.nodup_iff_injective_get.mp hnd
  have hkj : k = j := by
    have hgk : (S.map fun c => c.idx).get ⟨k, by simpa using hkS⟩ = S[k].idx := by
      simp [List.get_eq_getElem]
    have hgj : (S.map fun c => c.idx).get ⟨j, by simpa using hj⟩ = S[j].idx := by
      simp [List.get_eq_getElem]
    have heq : (S.map fun c => c.idx).get ⟨k, by simpa using hkS⟩
        = (S.map fun c => c.idx).get ⟨j, by simpa using hj⟩ := by
      rw [hgk, hgj]
      exact hpb
    have := hinj heq
    exact congrArg Fin.val this
  subst hkj
  simp [List.get_eq_getElem]

theorem find?_zip_at {S : List ColDesc} {t : List Cell} {j : Nat}
    (hnd : (S.map fun c => c.idx).Nodup) (hlen : t.length = S.length)
    (hj : j < S.length) :
    ((S.zip t).find? fun q => decide (q.1.idx = S[j].idx))
      = some (S[j], t.get ⟨j, by omega⟩) := by
  have hjt : j < t.length := by omega
  apply find?_eq_some_unique
  · have hzl : j < (S.zip t).length := by
      rw [List.length_zip]
      omega
    have hzip : (S.zip t)[j] = (S[j], t.get ⟨j, by omega⟩) := by
      rw [List.getElem_zip]
      simp [List.get_eq_getElem]
    rw [← hzip]
    exact List.getElem_mem hzl
  · simp
  · exact zip_elem_unique hnd hlen hj

theorem physList_map_fst {S : List ColDesc} {t : List Cell}
    (hlen : t.length = S.length) :
    (physList S t).map Prod.fst = physCols S := by
  unfold physList physCols
  rw [List.map_filterMap]
  exact List.filterMap_congr fun i _ => find?_zip_fst i S t hlen

theorem physList_length_eq {S : List ColDesc} {t : List Cell}
    (hlen : t.length = S.length) :
    (physList S t).length = (physCols S).length := by
  rw [← physList_map_fst hlen, List.length_map]

theorem mem_physList {S : List ColDesc} {t : List Cell} {j : Nat}
    (hS : validSchemaB S = true) (hlen : t.length = S.length)
    (hj : j < S.length) : (S[j], t.get ⟨j, by omega⟩) ∈ physList S t := by
  simp only [validSchemaB, Bool.and_eq_true, decide_eq_true_eq] at hS
  refine List.mem_filterMap.mpr ⟨S[j].idx, ?_, ?_⟩
  · have := List.all_eq_true.mp hS.2 (S[j]) (List.getElem_mem hj)
    simp only [decide_eq_true_eq] at this
    simpa using this
  · exact find?_zip_at hS.1 hlen hj

theorem physList_sub_zip {S : List ColDesc} {t : List Cell} {q : ColDesc × Cell}
    (hq : q ∈ physList S t) : q ∈ S.zip t := by
  obtain ⟨i, _, hfind⟩ := List.mem_filterMap.mp hq
  exact List.mem_of_find?_eq_some hfind

theorem physList_wt {S : List ColDesc} {t : List Cell} {q : ColDesc × Cell}
    (ht : wellTypedB S t = true) (hq : q ∈ physList S t) :
    cellTy q.2 = q.1.typ ∧ cellWT q.2 = true ∧
      (cellIsNull q.2 = true → q.1.nullable = true) := by
  have hz := physList_sub_zip hq
  simp only [wellTypedB, Bool.and_eq_true, decide_eq_true_eq] at ht
  have := List.all_eq_true.mp ht.2 q hz
  simp only [wtCellForCol, Bool.and_eq_true, Bool.or_eq_true, decide_eq_true_eq,
    Bool.not_eq_true'] at this
  refine ⟨this.1.1, this.1.2, fun hnull => ?_⟩
  rcases this.2 with h | h
  · rw [h] at hnull
    cases hnull
  · exact h

theorem keyPairs_fst {S : List ColDesc} {t : List Cell}
    (hlen : t.length = S.length) :
    (keyPairs S t).map Prod.fst = keyCols S := by
  unfold keyPairs keyCols
  rw [← physList_map_fst hlen, List.filter_map]
  rfl

theorem valPairs_fst {S : List ColDesc} {t : List Cell}
    (hlen : t.length = S.length) :
    (valPairs S t).map Prod.fst = valCols S := by
  unfold valPairs valCols
  rw [← physList_map_fst hlen, List.filter_map]
  rfl

theorem zip_fst_snd {α β : Type} : ∀ (L : List (α × β)),
    (L.map Prod.fst).zip (L.map Prod.snd) = L := by
  intro L
  induction L with
  | nil => rfl
  | cons q rest ih => simp [ih]

theorem parseKeyCells_enc : ∀ (L : List (ColDesc × Cell)) (r : List Nat),
    (∀ q ∈ L, cellTy q.2 = q.1.typ ∧ cellWT q.2 = true) →
    parseKeyCells (L.map Prod.fst) (encCells encKeyCell L ++ r)
      = some (L.map Prod.snd, r) := by
  intro L
  induction L with
  | nil =>
    intro r _
    simp [parseKeyCells, encCells]
  | cons q rest ih =>
    intro r hwt
    obtain ⟨hty, hcwt⟩ := hwt q (by simp)
    simp only [List.map_cons, encCells, List.append_assoc, parseKeyCells]
    rw [← hty, parseKeyCell_enc hcwt, Option.some_bind]
    rw [ih _ fun b hb => hwt b (by simp [hb]), Option.map_some']

theorem parseValCells_enc : ∀ (L : List (ColDesc × Cell)) (r : List Nat),
    (∀ q ∈ L, cellTy q.2 = q.1.typ ∧ cellWT q.2 = true) →
    parseValCells (L.map Prod.fst) (L.map fun q => cellIsNull q.2)
      (encCells encValCell L ++ r) = some (L.map Prod.snd, r) := by
  intro L
  induction L with
  | nil =>
    intro r _
    simp [parseValCells, encCells]
  | cons q rest ih =>
    intro r hwt
    obtain ⟨hty, hcwt⟩ := hwt q (by simp)
    simp only [List.map_cons, encCells, List.append_assoc, parseValCells]
    cases hnull : cellIsNull q.2 with
    | true =>
      rw [if_pos rfl]
      have henc : encValCell q.2 = [] := by
        unfold encValCell
        rw [hnull]
        rfl
      rw [henc, List.nil_append, ih _ fun b hb => hwt b (by simp [hb]),
        Option.map_some']
      rw [← hty, ← nullCell_eq hnull rfl]
    | false =>
      rw [if_neg (by simp)]
      have henc : encValCell q.2 = valPayload q.2 := by
        unfold encValCell
        rw [hnull]
        rfl
      rw [henc, ← hty, parseValPayload_enc hnull hcwt, Option.some_bind]
      rw [ih _ fun b hb => hwt b (by simp [hb]), Option.map_some']

theorem rebuild_eq : ∀ (S : List ColDesc) (t : List Cell)
    (pairs : List (ColDesc × Cell)) (hlen : t.length = S.length),
    (∀ j (hj : j < S.length),
      (pairs.find? fun q => decide (q.1.idx = S[j].idx)) = some (S[j], t.get ⟨j, by omega⟩)) →
    rebuild S pairs = some t := by
  intro S
  induction S with
  | nil =>
    intro t pairs hlen _
    have : t = [] := List.length_eq_zero.mp hlen
    subst this
    rfl
  | cons c cs ih =>
    intro t pairs hlen h
    cases t with
    | nil => simp at hlen
    | cons x xs =>
      have h0 := h 0 (by simp)
      simp only [List.getElem_cons_zero, List.get_cons_zero] at h0
      rw [rebuild, h0, Option.map_some', Option.some_bind]
      have hrec : rebuild cs pairs = some xs := by
        refine ih xs pairs (by simpa using hlen) fun j hj => ?_
        have := h (j + 1) (by simpa using hj)
        simpa using this
      rw [hrec, Option.map_some']
      simp

theorem find?_pairs_at {S : List ColDesc} {t : List Cell} {j : Nat}
    (hS : validSchemaB S = true) (hlen : t.length = S.length)
    (hj : j < S.length) :
    ((keyPairs S t ++ valPairs S t).find? fun q => decide (q.1.idx = S[j].idx))
      = some (S[j], t.get ⟨j, by omega⟩) := by
  have hnd : (S.map fun c => c.idx).Nodup := by
    simp only [validSchemaB, Bool.and_eq_true, decide_eq_true_eq] at hS
    exact hS.1
  apply find?_eq_some_unique
  · have hmem := mem_physList hS hlen hj
    rcases hk : S[j].isKey with hfalse | htrue
    · refine List.mem_append.mpr (Or.inr ?_)
      exact List.mem_filter.mpr ⟨hmem, by simp [hk]⟩
    · refine List.mem_append.mpr (Or.inl ?_)
      exact List.mem_filter.mpr ⟨hmem, by simp [hk]⟩
  · simp
  · intro b hb hpb
    have hbp : b ∈ physList S t := by
      rcases List.mem_append.mp hb with h | h
      · exact List.mem_of_mem_filter h
      · exact List.mem_of_mem_filter h
    exact zip_elem_unique hnd hlen hj b (physList_sub_zip hbp) hpb

theorem header_length (m : RecMeta) : (header m).length = 13 := by
  simp [header, toBE_length]

/-- Round trip of the record codec over any valid schema: decoding the
encoding of a well-typed tuple returns the tuple. -/
theorem decodeRecord_encodeRecord (m : RecMeta) (S : List ColDesc)
    (t : List Cell) (hS : validSchemaB S = true) (ht : wellTypedB S t = true) :
    decodeRecord m S (encodeRecord m S t) = some t := by
  have hlen : t.length = S.length := by
    have := ht
    simp only [wellTypedB, Bool.and_eq_true, decide_eq_true_eq] at this
    exact this.1
  have hwtK : ∀ q ∈ keyPairs S t, cellTy q.2 = q.1.typ ∧ cellWT q.2 = true :=
    fun q hq => ((physList_wt ht (List.mem_of_mem_filter hq)).imp id And.left)
  have hwtV : ∀ q ∈ valPairs S t, cellTy q.2 = q.1.typ ∧ cellWT q.2 = true :=
    fun q hq => ((physList_wt ht (List.mem_of_mem_filter hq)).imp id And.left)
  unfold decodeRecord encodeRecord
  have hassoc : header m ++ encCells encKeyCell (keyPairs S t) ++ [0]
      = header m ++ (encCells encKeyCell (keyPairs S t) ++ [0]) := by
    simp [List.append_assoc]
  simp only [hassoc]
  rw [List.take_left' (header_length m), if_pos rfl,
    List.drop_left' (header_length m)]
  rw [← keyPairs_fst hlen,
    parseKeyCells_enc (keyPairs S t) [0] hwtK]
  simp only [Option.some_bind, if_true]
  have hbits : ((valPairs S t).map fun q => cellIsNull q.2).length
      = (valCols S).length := by
    rw [← valPairs_fst hlen]
    simp [List.length_map]
  have hbm : (packBits ((valPairs S t).map fun q => cellIsNull q.2)).length
      = ((valCols S).length + 7) / 8 := by
    rw [packBits_length, hbits]
  rw [List.take_left' hbm, List.drop_left' hbm, ← hbits, unpack_packBits]
  have hval : parseValCells (valCols S) ((valPairs S t).map fun q => cellIsNull q.2)
      (encCells encValCell (valPairs S t))
      = some ((valPairs S t).map Prod.snd, []) := by
    rw [← valPairs_fst hlen, ← List.append_nil (encCells encValCell (valPairs S t))]
    exact parseValCells_enc (valPairs S t) [] hwtV
  rw [hval]
  simp only [Option.some_bind, if_true]
  rw [← valPairs_fst hlen, zip_fst_snd, zip_fst_snd]
  exact rebuild_eq S t (keyPairs S t ++ valPairs S t) hlen
    fun j hj => find?_pairs_at hS hlen hj

/-! ## Key order preservation of the record codec -/

/-- Lexicographic strict order over two equally long cell lists. -/
def cellsLtB : List Cell → List Cell → Bool
  | c1 :: r1, c2 :: r2 => cellLtB c1 c2 || (decide (c1 = c2) && cellsLtB r1 r2)
  | _, _ => false

/-- The key cells of a tuple in ascending physical order. -/
def keyCells (S : List ColDesc) (t : List Cell) : List Cell :=
  (keyPairs S t).map Prod.snd

theorem encCells_div : ∀ (L1 L2 : List (ColDesc × Cell)),
    L1.map Prod.fst = L2.map Prod.fst →
    (∀ q ∈ L1, cellWT q.2 = true) → (∀ q ∈ L2, cellWT q.2 = true) →
    cellsLtB (L1.map Prod.snd) (L2.map Prod.snd) = true →
    bytesDiv (encCells encKeyCell L1) (encCells encKeyCell L2) = true := by
  intro L1
  induction L1 with
  | nil =>
    intro L2 _ _ _ hlt
    simp [cellsLtB] at hlt
  | cons q1 r1 ih =>
    intro L2 hfst hw1 hw2 hlt
    cases L2 with
    | nil => simp at hfst
    | cons q2 r2 =>
      simp only [List.map_cons, List.cons.injEq] at hfst
      simp only [List.map_cons, cellsLtB, Bool.or_eq_true, Bool.and_eq_true,
        decide_eq_true_eq] at hlt
      simp only [encCells]
      rcases hlt with hhd | ⟨heq, hrest⟩
      · exact bytesDiv_append _ _
          (encKeyCell_div (hw1 q1 (by simp)) (hw2 q2 (by simp)) hhd)
      · rw [heq]
        exact bytesDiv_cancel (encKeyCell q2.2)
          (ih r2 hfst.2 (fun b hb => hw1 b (by simp [hb]))
            (fun b hb => hw2 b (by simp [hb])) hrest)

/-- Key order preservation of the record codec: a tuple that is strictly
smaller in the lexicographic order of the key columns, in ascending physical
order, encodes to key bytes that diverge below those of the larger tuple. -/
theorem encodeRecord_key_div (m : RecMeta) (S : List ColDesc)
    (t1 t2 : List Cell) (hS : validSchemaB S = true)
    (h1 : wellTypedB S t1 = true) (h2 : wellTypedB S t2 = true)
    (hlt : cellsLtB (keyCells S t1) (keyCells S t2) = true) :
    bytesDiv (encodeRecord m S t1).1 (encodeRecord m S t2).1 = true := by
  have hlen1 : t1.length = S.length := by
    have := h1
    simp only [wellTypedB, Bool.and_eq_true, decide_eq_true_eq] at this
    exact this.1
  have hlen2 : t2.length = S.length := by
    have := h2
    simp only [wellTypedB, Bool.and_eq_true, decide_eq_true_eq] at this
    exact this.1
  have hfst : (keyPairs S t1).map Prod.fst = (keyPairs S t2).map Prod.fst := by
    rw [keyPairs_fst hlen1, keyPairs_fst hlen2]
  have hw1 : ∀ q ∈ keyPairs S t1, cellWT q.2 = true :=
    fun q hq => (physList_wt h1 (List.mem_of_mem_filter hq)).2.1
  have hw2 : ∀ q ∈ keyPairs S t2, cellWT q.2 = true :=
    fun q hq => (physList_wt h2 (List.mem_of_mem_filter hq)).2.1
  unfold encodeRecord
  simp only
  have hdiv := encCells_div (keyPairs S t1) (keyPairs S t2) hfst hw1 hw2 hlt
  exact bytesDiv_cancel (header m) (bytesDiv_append [0] [0] hdiv)

/-! ## The declarative plan and Open validation

Modelled from the spec: the wire struct Coprocessor with schema version,
original schema, selection columns, result schema, group-by columns and
aggregation operators, and the validation performed by Coprocessor.Open.
Missing components are legal: a degenerate plan streams raw rows through. -/

/-- Aggregation operator kinds. -/
inductive AggType
  | SUM | COUNT | COUNTWITHNULL | MAX | MIN | SUM0
deriving DecidableEq

/-- One aggregation operator of the plan. -/
structure AggPb where
  oper : AggType
  idxOfCol : Int
deriving DecidableEq

/-- A schema of the plan: table common id plus column descriptors. -/
structure SchemaPb where
  commonId : Int
  cols : List ColDesc
deriving DecidableEq

/-- The declarative coprocessor plan. -/
structure PlanPb where
  schemaVersion : Nat
  original : Option SchemaPb
  selection : List Int
  result : Option SchemaPb
  groupBy : List Int
  aggs : List AggPb
deriving DecidableEq

/-- Error taxonomy of the coprocessor. -/
inductive Errno
  | OK | InvalidPlan | IndexOutOfRange | TypeMismatch | SchemaMismatch
  | Overflow | DecodeErr | ResourceExhausted
deriving DecidableEq

/-- Columns of the original schema, empty when the plan carries none. -/
def origCols (p : PlanPb) : List ColDesc :=
  match p.original with
  | some s => s.cols
  | none => []

/-- Columns of the result schema, empty when the plan carries none. -/
def resultCols (p : PlanPb) : List ColDesc :=
  match p.result with
  | some s => s.cols
  | none => []

/-- Length of the projected tuple: the selection length, or the original
schema length when the selection is empty (pass-through projection). -/
def projLen (p : PlanPb) : Nat :=
  if p.selection.isEmpty then (origCols p).length else p.selection.length

/-- Column descriptors of the projected tuple. -/
def projCols (p : PlanPb) : List ColDesc :=
  if p.selection.isEmpty then origCols p
  else p.selection.filterMap fun i => (origCols p).get? i.toNat

/-- Types of the projected tuple. -/
def projTys (p : PlanPb) : List ColType :=
  (projCols p).map fun c => c.typ

/-- The no-column sentinel: a negative index or one at or past the end of the
projected tuple denotes a virtual null fed to the accumulator on every row. -/
def sentinelIdx (n : Nat) (i : Int) : Bool :=
  decide (i < 0) || decide (n ≤ i.toNat)

/-- An aggregation column index is either a legal projected index or the
no-column sentinel. -/
def aggIdxOK (n : Nat) (i : Int) : Bool :=
  (decide (0 ≤ i) && decide (i.toNat < n)) || sentinelIdx n i

/-- Every integer is a legal aggregation index: either in range or the
sentinel.  An aggregation index is therefore never rejected at Open. -/
theorem aggIdxOK_always (n : Nat) (i : Int) : aggIdxOK n i = true := by
  unfold aggIdxOK sentinelIdx
  simp only [Bool.or_eq_true, Bool.and_eq_true, decide_eq_true_eq]
  omega

/-- Output-type consistency of one aggregation slot against the result
schema: counting operators produce INT64, the other operators carry the
projected column type through, and a sentinel slot is unconstrained. -/
def aggTyOK (tys : List ColType) (a : AggPb) (outTy : ColType) : Bool :=
  match a.oper with
  | .COUNT | .COUNTWITHNULL => decide (outTy = .tInt64)
  | _ =>
    if h : 0 ≤ a.idxOfCol ∧ a.idxOfCol.toNat < tys.length then
      decide (outTy = tys.get ⟨a.idxOfCol.toNat, h.2⟩)
    else true

/-- Common ids of the original and result schemas agree when both are
present. -/
def commonIdOK (p : PlanPb) : Bool :=
  match p.original, p.result with
  | some a, some b => decide (a.commonId = b.commonId)
  | _, _ => true

/-- Expected result column count: group-by columns plus aggregation results
in aggregating modes, the projected length otherwise. -/
def expectedResultLen (p : PlanPb) : Nat :=
  if p.groupBy.isEmpty && p.aggs.isEmpty then projLen p
  else p.groupBy.length + p.aggs.length

/-- Modelled from the spec: Coprocessor.Open validation of a plan.  The
schema version must be positive, common ids must agree, selection and
group-by indices must be in range, aggregation indices are always legal
(sentinel rule), and a non-empty result schema must have the expected column
count and slot types. -/
def openValidate (p : PlanPb) : Errno :=
  if p.schemaVersion = 0 then .InvalidPlan
  else if ¬ commonIdOK p then .InvalidPlan
  else if ¬ (p.selection.all fun i =>
      decide (0 ≤ i) && decide (i.toNat < (origCols p).length)) then .IndexOutOfRange
  else if ¬ (p.groupBy.all fun i =>
      decide (0 ≤ i) && decide (i.toNat < projLen p)) then .IndexOutOfRange
  else if ¬ (p.aggs.all fun a => aggIdxOK (projLen p) a.idxOfCol) then .IndexOutOfRange
  else if (resultCols p).isEmpty then .OK
  else if (resultCols p).length ≠ expectedResultLen p then .InvalidPlan
  else if ¬ (((resultCols p).drop p.groupBy.length).zip p.aggs).all
      (fun q => aggTyOK (projTys p) q.2 q.1.typ) then .TypeMismatch
  else .OK

/-- Modelled from the spec: the mutable coprocessor instance, holding the
currently opened plan and any buffered groups. -/
structure CopInstance where
  plan : Option PlanPb
  buffered : List (List Nat × List Nat)
deriving DecidableEq

/-- A freshly constructed coprocessor instance. -/
def emptyCop : CopInstance := { plan := none, buffered := [] }

/-- Modelled from the spec: Coprocessor.Close releases the schema registry
and buffered groups. -/
def closeCop (_ : CopInstance) : CopInstance := emptyCop

/-- Modelled from the spec: Coprocessor.Open validates the plan and, on
success, configures the instance from scratch. -/
def openCop (p : PlanPb) (st : CopInstance) : Errno × CopInstance :=
  match openValidate p with
  | .OK => (.OK, { plan := some p, buffered := [] })
  | e => (e, st)

/-! ## Aggregation

Modelled from the spec: six accumulator kinds with the declared null
semantics.  Floating point addition is not shallow-embeddable through its
rounding behaviour, so the executor is parametric in the IEEE-754 double
addition and the float widening map; every theorem below holds for every
choice of these operations. -/

/-- The IEEE-754 operations the aggregator is parametric in: double addition
and the exact float-to-double widening, both on bit patterns. -/
structure FloatOps where
  addF64 : Nat → Nat → Nat
  f32toF64 : Nat → Nat

/-- Fetch the accumulator input of one row: the projected cell at the column
index, or the virtual null (none) for a sentinel index. -/
def aggFetch (row : List Cell) (i : Int) : Option Cell :=
  if h : 0 ≤ i ∧ i.toNat < row.length then some (row.get ⟨i.toNat, h.2⟩) else none

/-- An accumulator input counts as null when it is the virtual null or a null
cell. -/
def inIsNull : Option Cell → Bool
  | none => true
  | some c => cellIsNull c

/-- The non-null cells among the accumulator inputs. -/
def nonNullCells (inputs : List (Option Cell)) : List Cell :=
  inputs.filterMap fun x =>
    match x with
    | some c => if cellIsNull c then none else some c
    | none => none

/-- Numeric view of a cell for integer summation, with the BOOL to INT64 and
INT32 to INT64 promotions. -/
def cellNumInt : Cell → Option Int
  | .b (some v) => some (if v then 1 else 0)
  | .i32 (some v) => some v
  | .i64 (some v) => some v
  | _ => none

/-- Numeric view of a cell for float summation, with the FLOAT32 to FLOAT64
promotion. -/
def cellNumF64 (fops : FloatOps) : Cell → Option Nat
  | .f32 (some w) => some (fops.f32toF64 w)
  | .f64 (some w) => some w
  | _ => none

/-- Promoted output type of summation. -/
def promoteTy : ColType → Option ColType
  | .tBool | .tInt32 | .tInt64 => some .tInt64
  | .tFloat32 | .tFloat64 => some .tFloat64
  | .tString => none

/-- Input column type of one aggregation slot, none for a sentinel index. -/
def aggInTy (tys : List ColType) (i : Int) : Option ColType :=
  if h : 0 ≤ i ∧ i.toNat < tys.length then some (tys.get ⟨i.toNat, h.2⟩) else none

/-- Modelled from the spec: the result of one accumulator over the whole
group.  COUNT ignores nulls, COUNT_WITH_NULL counts every row, SUM skips
nulls and yields null for an all-null group, SUM0 yields zero instead, MAX
and MIN yield the extreme non-null value per the cell order and null for an
all-null group. -/
def aggResult (fops : FloatOps) (op : AggType) (inTy : Option ColType)
    (inputs : List (Option Cell)) : Except Errno Cell :=
  match op with
  | .COUNT => .ok (.i64 (some ((inputs.filter fun x => !inIsNull x).length : Int)))
  | .COUNTWITHNULL => .ok (.i64 (some (inputs.length : Int)))
  | .MAX =>
    match nonNullCells inputs with
    | [] => .ok (nullCellOf ((inTy.getD .tInt64)))
    | v :: vs => .ok (vs.foldl (fun acc c => if cellLtB acc c then c else acc) v)
  | .MIN =>
    match nonNullCells inputs with
    | [] => .ok (nullCellOf ((inTy.getD .tInt64)))
    | v :: vs => .ok (vs.foldl (fun acc c => if cellLtB c acc then c else acc) v)
  | .SUM | .SUM0 =>
    match inTy with
    | none => .ok (if op = .SUM0 then .i64 (some 0) else .i64 none)
    | some ty =>
      match promoteTy ty with
      | none => .error .TypeMismatch
      | some .tInt64 =>
        match (nonNullCells inputs).filterMap cellNumInt with
        | [] => .ok (if op = .SUM0 then .i64 (some 0) else .i64 none)
        | v :: vs => .ok (.i64 (some (vs.foldl (fun a b => a + b) v)))
      | some .tFloat64 =>
        match (nonNullCells inputs).filterMap (cellNumF64 fops) with
        | [] => .ok (if op = .SUM0 then .f64 (some 0) else .f64 none)
        | v :: vs => .ok (.f64 (some (vs.foldl fops.addF64 v)))
      | some _ => .error .TypeMismatch

/-- The aggregation result cells of all declared operators, in declared
order, over the projected rows of the whole scan. -/
def computeAggCells (fops : FloatOps) (tys : List ColType) :
    List AggPb → List (List Cell) → Except Errno (List Cell)
  | [], _ => .ok []
  | a :: rest, rows =>
    (aggResult fops a.oper (aggInTy tys a.idxOfCol)
        (rows.map fun r => aggFetch r a.idxOfCol)).bind fun c =>
      (computeAggCells fops tys rest rows).map fun cs => c :: cs

/-! ## The executor

Modelled from the spec: Coprocessor.Execute.  The input iterator is
abstracted as the list of key-value pairs the scan yields.  Pass-through mode
streams rows under the fetch and byte budget; grouped and aggregating modes
consume the whole scan, buffer the result rows and drain the buffer under the
budget on this and subsequent calls. -/

/-- Select the cells of a tuple at the given logical indices. -/
def selectCells (t : List Cell) : List Int → Option (List Cell)
  | [] => some []
  | i :: rest =>
    if h : 0 ≤ i ∧ i.toNat < t.length then
      (selectCells t rest).map fun xs => t.get ⟨i.toNat, h.2⟩ :: xs
    else none

/-- Projection of a decoded tuple: the identity for an empty selection, the
selected cells otherwise. -/
def projectRow (p : PlanPb) (t : List Cell) : Option (List Cell) :=
  if p.selection.isEmpty then some t else selectCells t p.selection

/-- Canonical group-key bytes: the key-codec encoding of the group cells, so
that equal group keys hash and compare equally. -/
def encCellList : List Cell → List Nat
  | [] => []
  | c :: rest => encKeyCell c ++ encCellList rest

/-- Append a projected row to its group, keyed by canonical bytes, keeping
first-appearance order of the groups. -/
def insertGroup (k : List Nat) (gc row : List Cell) :
    List (List Nat × List Cell × List (List Cell)) →
      List (List Nat × List Cell × List (List Cell))
  | [] => [(k, gc, [row])]
  | (k0, gc0, rs) :: rest =>
    if k0 = k then (k0, gc0, rs ++ [row]) :: rest
    else (k0, gc0, rs) :: insertGroup k gc row rest

/-- Group the projected rows by the group-by columns, first-appearance
order. -/
def scanGroups (p : PlanPb) :
    List (List Cell) → Except Errno (List (List Nat × List Cell × List (List Cell)))
  | [] => .ok []
  | row :: rest =>
    match selectCells row p.groupBy with
    | none => .error .IndexOutOfRange
    | some gc =>
      (scanGroups p rest).map fun m => insertGroup (encCellList gc) gc row m

/-- Modelled from the spec: the buffered result rows of the grouped and
aggregating modes over the rows of the whole scan.  Mode C (aggregation
without grouping) yields exactly one row, the aggregation results in declared
order; mode B (grouping without aggregation) one row per group holding the
group key; mode D one row per group holding the group key followed by the
aggregation results. -/
def computeBuffered (fops : FloatOps) (p : PlanPb) (rows : List (List Cell)) :
    Except Errno (List (List Cell)) :=
  if p.groupBy.isEmpty then
    (computeAggCells fops (projTys p) p.aggs rows).map fun cs => [cs]
  else
    (scanGroups p rows).bind fun groups =>
      if p.aggs.isEmpty then .ok (groups.map fun g => g.2.1)
      else
        groups.foldr (fun g acc =>
          (computeAggCells fops (projTys p) p.aggs g.2.2).bind fun cs =>
            acc.map fun out => (g.2.1 ++ cs) :: out) (.ok [])

/-- Decode every input row with the original schema. -/
def decodeAll (m : RecMeta) (cols : List ColDesc) :
    List (List Nat × List Nat) → Except Errno (List (List Cell))
  | [] => .ok []
  | kv :: rest =>
    match decodeRecord m cols kv with
    | none => .error .DecodeErr
    | some t => (decodeAll m cols rest).map fun ts => t :: ts

/-- Project every decoded row. -/
def projectAll (p : PlanPb) : List (List Cell) → Except Errno (List (List Cell))
  | [] => .ok []
  | t :: rest =>
    match projectRow p t with
    | none => .error .IndexOutOfRange
    | some row => (projectAll p rest).map fun rs => row :: rs

/-- Re-encode every buffered result row with the result schema.  A row that
does not fit the result schema, such as an integer sum out of the 64-bit
range, fails the call at encode time. -/
def encodeRows (m : RecMeta) (cols : List ColDesc) :
    List (List Cell) → Except Errno (List (List Nat × List Nat))
  | [] => .ok []
  | row :: rest =>
    if wellTypedB cols row then
      (encodeRows m cols rest).map fun kvs => encodeRecord m cols row :: kvs
    else .error .Overflow

/-- Byte footprint of one output row against the byte budget. -/
def kvSize (kv : List Nat × List Nat) : Nat := kv.1.length + kv.2.length

/-- Pass-through mode: the plan has no grouping and no aggregation. -/
def isStreaming (p : PlanPb) : Bool := p.groupBy.isEmpty && p.aggs.isEmpty

/-- Drain encoded rows under the fetch count and byte budget.  A call with a
positive budget always takes at least one pending row: the byte cap is soft
and only stops the batch after it is exceeded. -/
def takeBudget : Nat → Int → List (List Nat × List Nat) →
    List (List Nat × List Nat) × List (List Nat × List Nat)
  | _, _, [] => ([], [])
  | 0, _, l => ([], l)
  | f + 1, b, kv :: rest =>
    if b ≤ 0 then ([], kv :: rest)
    else
      let pr := takeBudget f (b - kvSize kv) rest
      (kv :: pr.1, pr.2)

/-- Decode, project and re-encode one input row of the pass-through mode. -/
def processRow (m : RecMeta) (p : PlanPb) (kv : List Nat × List Nat) :
    Except Errno (List Nat × List Nat) :=
  match decodeRecord m (origCols p) kv with
  | none => .error .DecodeErr
  | some t =>
    match projectRow p t with
    | none => .error .IndexOutOfRange
    | some row =>
      if wellTypedB (resultCols p) row then .ok (encodeRecord m (resultCols p) row)
      else .error .Overflow

/-- Streaming loop of the pass-through mode: process rows until the fetch
count or the byte budget is spent, returning the outputs and the unconsumed
input. -/
def ptGo (m : RecMeta) (p : PlanPb) : Nat → Int → List (List Nat × List Nat) →
    Except Errno (List (List Nat × List Nat) × List (List Nat × List Nat))
  | _, _, [] => .ok ([], [])
  | 0, _, l => .ok ([], l)
  | f + 1, b, kv :: rest =>
    if b ≤ 0 then .ok ([], kv :: rest)
    else
      (processRow m p kv).bind fun out =>
        (ptGo m p f (b - kvSize out) rest).map fun pr => (out :: pr.1, pr.2)

/-- State of one Execute chain: the unconsumed scan, the buffered output rows
of the grouped modes, and whether the scan phase has completed. -/
structure ExecSt where
  toScan : List (List Nat × List Nat)
  buffered : List (List Nat × List Nat)
  scanned : Bool
deriving DecidableEq

/-- The scan phase of the grouped and aggregating modes: decode the whole
remaining input, project, aggregate into buffered result rows and re-encode
them with the result schema. -/
def scanKvs (fops : FloatOps) (m : RecMeta) (p : PlanPb)
    (inputs : List (List Nat × List Nat)) :
    Except Errno (List (List Nat × List Nat)) :=
  (decodeAll m (origCols p) inputs).bind fun ts =>
    (projectAll p ts).bind fun rows =>
      (computeBuffered fops p rows).bind fun outRows =>
        encodeRows m (resultCols p) outRows

/-- Modelled from the spec: one Coprocessor.Execute call.  Pass-through mode
streams under the budget; the grouped and aggregating modes consume the scan
to exhaustion on the first call, then drain the buffered rows under the
budget.  The has-more flag reports whether work remains. -/
def execOnce (fops : FloatOps) (m : RecMeta) (p : PlanPb) (st : ExecSt)
    (maxFetch : Nat) (maxBytes : Int) :
    Except Errno (List (List Nat × List Nat) × ExecSt × Bool) :=
  if isStreaming p then
    (ptGo m p maxFetch maxBytes st.toScan).map fun pr =>
      (pr.1, { toScan := pr.2, buffered := st.buffered, scanned := st.scanned },
        !pr.2.isEmpty)
  else if st.scanned then
    let pr := takeBudget maxFetch maxBytes st.buffered
    .ok (pr.1, { toScan := st.toScan, buffered := pr.2, scanned := true },
      !pr.2.isEmpty)
  else
    (scanKvs fops m p st.toScan).map fun kvs =>
      let pr := takeBudget maxFetch maxBytes kvs
      (pr.1, { toScan := [], buffered := pr.2, scanned := true },
        !pr.2.isEmpty)

/-- The caller loop of the test harness: Execute until a call returns no
rows, concatenating the batches; fuel bounds the number of calls. -/
def execLoop (fops : FloatOps) (m : RecMeta) (p : PlanPb) :
    Nat → ExecSt → Nat → Int → Except Errno (List (List Nat × List Nat))
  | 0, _, _, _ => .ok []
  | fuel + 1, st, mf, mb =>
    (execOnce fops m p st mf mb).bind fun r =>
      if r.1.isEmpty then .ok []
      else (execLoop fops m p fuel r.2.1 mf mb).map fun more => r.1 ++ more

/-! ## Executor laws -/

theorem exceptBind_ok {ε α β : Type} {x : Except ε α} {f : α → Except ε β}
    {v : β} (h : x.bind f = .ok v) : ∃ a, x = .ok a ∧ f a = .ok v := by
  cases x with
  | error e =>
    rw [show Except.bind (Except.error e) f = Except.error e from rfl] at h
    exact absurd h (by simp)
  | ok a => exact ⟨a, rfl, h⟩

theorem exceptMap_ok {ε α β : Type} {x : Except ε α} {f : α → β} {v : β}
    (h : x.map f = .ok v) : ∃ a, x = .ok a ∧ f a = v := by
  cases x with
  | error e =>
    rw [show Except.map f (Except.error e) = Except.error e from rfl] at h
    exact absurd h (by simp)
  | ok a =>
    rw [show Except.map f (Except.ok a) = Except.ok (f a) from rfl] at h
    simp only [Except.ok.injEq] at h
    exact ⟨a, rfl, h⟩

theorem takeBudget_nil (f : Nat) (b : Int) : takeBudget f b [] = ([], []) := by
  cases f <;> rfl

theorem takeBudget_append : ∀ (f : Nat) (b : Int) (l : List (List Nat × List Nat)),
    (takeBudget f b l).1 ++ (takeBudget f b l).2 = l := by
  intro f
  induction f with
  | zero =>
    intro b l
    cases l <;> rfl
  | succ f ih =>
    intro b l
    cases l with
    | nil => rfl
    | cons kv rest =>
      rw [takeBudget]
      by_cases hb : b ≤ 0
      · rw [if_pos hb]
        rfl
      · rw [if_neg hb]
        simp only [List.cons_append, List.cons.injEq, true_and]
        exact ih (b - kvSize kv) rest

theorem takeBudget_progress {f : Nat} {b : Int} {l : List (List Nat × List Nat)}
    (hf : 0 < f) (hb : 0 < b) (hl : l ≠ []) : (takeBudget f b l).1 ≠ [] := by
  cases f with
  | zero => omega
  | succ f =>
    cases l with
    | nil => exact absurd rfl hl
    | cons kv rest =>
      rw [takeBudget, if_neg (by omega)]
      simp

theorem ptGo_nil (m : RecMeta) (p : PlanPb) (f : Nat) (b : Int) :
    ptGo m p f b [] = .ok ([], []) := by
  cases f <;> rfl

theorem ptGo_progress {m : RecMeta} {p : PlanPb} {f : Nat} {b : Int}
    {l o rem : List (List Nat × List Nat)}
    (h : ptGo m p f b l = .ok (o, rem)) (hf : 0 < f) (hb : 0 < b) :
    o ≠ [] ∨ rem = [] := by
  cases l with
  | nil =>
    rw [ptGo_nil] at h
    simp only [Except.ok.injEq, Prod.mk.injEq] at h
    exact Or.inr h.2.symm
  | cons kv rest =>
    cases f with
    | zero => omega
    | succ f =>
      rw [ptGo, if_neg (by omega)] at h
      obtain ⟨out0, _, h2⟩ := exceptBind_ok h
      obtain ⟨pr, _, h3⟩ := exceptMap_ok h2
      simp only [Prod.mk.injEq] at h3
      left
      rw [← h3.1]
      simp

/-- Forward progress: a successful Execute call with a positive fetch count
and byte budget returns at least one row or reports no more work. -/
theorem execOnce_progress {fops : FloatOps} {m : RecMeta} {p : PlanPb}
    {st : ExecSt} {mf : Nat} {mb : Int} {out : List (List Nat × List Nat)}
    {st2 : ExecSt} {hm : Bool}
    (h : execOnce fops m p st mf mb = .ok (out, st2, hm))
    (hmf : 0 < mf) (hmb : 0 < mb) : out ≠ [] ∨ hm = false := by
  unfold execOnce at h
  by_cases hstr : isStreaming p = true
  · rw [if_pos hstr] at h
    obtain ⟨pr, hpt, hout⟩ := exceptMap_ok h
    simp only [Prod.mk.injEq] at hout
    rcases ptGo_progress hpt hmf hmb with h1 | h1
    · exact Or.inl (hout.1 ▸ h1)
    · right
      rw [← hout.2.2, h1]
      rfl
  · rw [if_neg hstr] at h
    by_cases hsc : st.scanned = true
    · rw [if_pos hsc] at h
      simp only [Except.ok.injEq, Prod.mk.injEq] at h
      cases hbuf : st.buffered with
      | nil =>
        right
        rw [← h.2.2, hbuf, takeBudget_nil]
        rfl
      | cons kv rest =>
        left
        rw [← h.1, hbuf]
        exact takeBudget_progress hmf hmb (by simp)
    · rw [if_neg hsc] at h
      obtain ⟨kvs, _, hout⟩ := exceptMap_ok h
      simp only [Prod.mk.injEq] at hout
      cases hkvs : kvs with
      | nil =>
        right
        rw [← hout.2.2, hkvs, takeBudget_nil]
        rfl
      | cons kv rest =>
        left
        rw [← hout.1, hkvs]
        exact takeBudget_progress hmf hmb (by simp)

/-- Once an Execute call reports no more work, the next Execute on the
returned state yields no rows, under any budget. -/
theorem execOnce_stop {fops : FloatOps} {m : RecMeta} {p : PlanPb}
    {st st2 st3 : ExecSt} {mf mf2 : Nat} {mb mb2 : Int}
    {out out2 : List (List Nat × List Nat)} {hm2 : Bool}
    (h : execOnce fops m p st mf mb = .ok (out, st2, false))
    (h2 : execOnce fops m p st2 mf2 mb2 = .ok (out2, st3, hm2)) :
    out2 = [] := by
  unfold execOnce at h h2
  by_cases hstr : isStreaming p = true
  · rw [if_pos hstr] at h h2
    obtain ⟨pr, hpt, hout⟩ := exceptMap_ok h
    simp only [Prod.mk.injEq] at hout
    have hrem : pr.2 = [] := by
      have hb : (!pr.2.isEmpty) = false := hout.2.2
      simpa using hb
    have hscan : st2.toScan = [] := by
      rw [← hout.2.1]
      exact hrem
    rw [hscan, ptGo_nil] at h2
    obtain ⟨pr2, hpr2, hout2⟩ := exceptMap_ok h2
    simp only [Except.ok.injEq] at hpr2
    simp only [Prod.mk.injEq] at hout2
    rw [← hout2.1, ← hpr2]
  · rw [if_neg hstr] at h h2
    have hbuf : st2.buffered = [] ∧ st2.scanned = true := by
      by_cases hsc : st.scanned = true
      · rw [if_pos hsc] at h
        simp only [Except.ok.injEq, Prod.mk.injEq] at h
        constructor
        · rw [← h.2.1]
          have hb : (!(takeBudget mf mb st.buffered).2.isEmpty) = false := h.2.2
          simpa using hb
        · rw [← h.2.1]
      · rw [if_neg hsc] at h
        obtain ⟨kvs, _, hout⟩ := exceptMap_ok h
        simp only [Prod.mk.injEq] at hout
        constructor
        · rw [← hout.2.1]
          have hb : (!(takeBudget mf mb kvs).2.isEmpty) = false := hout.2.2
          simpa using hb
        · rw [← hout.2.1]
    rw [if_pos hbuf.2] at h2
    simp only [Except.ok.injEq, Prod.mk.injEq] at h2
    rw [← h2.1, hbuf.1, takeBudget_nil]

theorem exceptBindOk {ε α β : Type} (a : α) (f : α → Except ε β) :
    (Except.ok a : Except ε α).bind f = f a := rfl

theorem exceptMapOk {ε α β : Type} (a : α) (f : α → β) :
    (Except.ok a : Except ε α).map f = .ok (f a) := rfl

theorem decodeAll_enc (m : RecMeta) (cols : List ColDesc)
    (hS : validSchemaB cols = true) : ∀ (rs : List (List Cell)),
    (∀ r ∈ rs, wellTypedB cols r = true) →
    decodeAll m cols (rs.map (encodeRecord m cols)) = .ok rs := by
  intro rs
  induction rs with
  | nil =>
    intro _
    rfl
  | cons r rest ih =>
    intro hwt
    simp only [List.map_cons, decodeAll,
      decodeRecord_encodeRecord m cols r hS (hwt r (by simp))]
    rw [ih fun b hb => hwt b (by simp [hb]), exceptMapOk]

theorem projectAll_empty_sel {p : PlanPb} (hsel : p.selection = []) :
    ∀ (ts : List (List Cell)), projectAll p ts = .ok ts := by
  intro ts
  induction ts with
  | nil => rfl
  | cons t rest ih =>
    simp only [projectAll, projectRow, hsel, List.isEmpty_nil, if_true]
    rw [ih, exceptMapOk]

theorem processRow_id {m : RecMeta} {p : PlanPb} {t : List Cell}
    (hsel : p.selection = []) (hres : resultCols p = origCols p)
    (hS : validSchemaB (origCols p) = true)
    (ht : wellTypedB (origCols p) t = true) :
    processRow m p (encodeRecord m (origCols p) t)
      = .ok (encodeRecord m (origCols p) t) := by
  unfold processRow
  rw [decodeRecord_encodeRecord m (origCols p) t hS ht]
  simp only [projectRow, hsel, List.isEmpty_nil, if_true]
  rw [hres, if_pos ht]

theorem ptGo_id {m : RecMeta} {p : PlanPb} (hsel : p.selection = [])
    (hres : resultCols p = origCols p)
    (hS : validSchemaB (origCols p) = true) :
    ∀ (rs : List (List Cell)) (f : Nat) (b : Int),
    (∀ r ∈ rs, wellTypedB (origCols p) r = true) →
    ∃ rs1 rs2, rs = rs1 ++ rs2 ∧
      ptGo m p f b (rs.map (encodeRecord m (origCols p)))
        = .ok (rs1.map (encodeRecord m (origCols p)),
               rs2.map (encodeRecord m (origCols p))) ∧
      (rs ≠ [] → 0 < f → 0 < b → rs1 ≠ []) := by
  intro rs
  induction rs with
  | nil =>
    intro f b _
    exact ⟨[], [], rfl, by simp [ptGo_nil], fun h => absurd rfl h⟩
  | cons r rest ih =>
    intro f b hwt
    cases f with
    | zero =>
      refine ⟨[], r :: rest, rfl, ?_, fun _ h0 _ => absurd h0 (by omega)⟩
      simp only [List.map_cons, List.map_nil]
      rfl
    | succ f =>
      by_cases hb : b ≤ 0
      · refine ⟨[], r :: rest, rfl, ?_, fun _ _ hb2 => absurd hb (by omega)⟩
        simp only [List.map_cons, List.map_nil]
        rw [ptGo, if_pos hb]
      · obtain ⟨rs1, rs2, heq, hpt, _⟩ :=
          ih f (b - kvSize (encodeRecord m (origCols p) r))
            fun x hx => hwt x (by simp [hx])
        refine ⟨r :: rs1, rs2, by rw [heq]; rfl, ?_, fun _ _ _ => by simp⟩
        simp only [List.map_cons]
        rw [ptGo, if_neg hb, processRow_id hsel hres hS (hwt r (by simp)),
          exceptBindOk, hpt, exceptMapOk]

theorem execLoop_passthrough {fops : FloatOps} {m : RecMeta} {p : PlanPb}
    (hstr : isStreaming p = true) (hsel : p.selection = [])
    (hres : resultCols p = origCols p)
    (hS : validSchemaB (origCols p) = true) :
    ∀ (N : Nat) (rs : List (List Cell)) (fuel : Nat)
      (buf : List (List Nat × List Nat)) (sc : Bool) (mf : Nat) (mb : Int),
    rs.length < N → rs.length + 1 ≤ fuel → 0 < mf → 0 < mb →
    (∀ r ∈ rs, wellTypedB (origCols p) r = true) →
    execLoop fops m p fuel
        ⟨rs.map (encodeRecord m (origCols p)), buf, sc⟩ mf mb
      = .ok (rs.map (encodeRecord m (origCols p))) := by
  intro N
  induction N with
  | zero =>
    intro rs _ _ _ _ _ hN
    omega
  | succ N ih =>
    intro rs fuel buf sc mf mb hN hfuel hmf hmb hwt
    cases fuel with
    | zero => omega
    | succ fuel =>
      obtain ⟨rs1, rs2, heq, hpt, hne⟩ := ptGo_id hsel hres hS rs mf mb hwt
      rw [execLoop]
      rw [show execOnce fops m p
          ⟨rs.map (encodeRecord m (origCols p)), buf, sc⟩ mf mb
          = (ptGo m p mf mb (rs.map (encodeRecord m (origCols p)))).map
            fun pr => (pr.1, ⟨pr.2, buf, sc⟩, !pr.2.isEmpty) from by
        unfold execOnce
        rw [if_pos hstr]]
      rw [hpt, exceptMapOk, exceptBindOk]
      cases rs with
      | nil =>
        have h1 : rs1 = [] := by
          rcases List.append_eq_nil.mp heq.symm with ⟨ha, _⟩
          exact ha
        rw [h1]
        simp
      | cons r rest =>
        have hne1 : rs1 ≠ [] := hne (by simp) hmf hmb
        rw [if_neg (by simpa using hne1)]
        have hlen : rs2.length < N := by
          have : rs1.length + rs2.length = (r :: rest).length := by
            rw [heq, List.length_append]
          have h1 : 1 ≤ rs1.length := by
            cases rs1 with
            | nil => exact absurd rfl hne1
            | cons a b => simp
          simp only [List.length_cons] at this hN
          omega
        have hfuel2 : rs2.length + 1 ≤ fuel := by
          have : rs1.length + rs2.length = (r :: rest).length := by
            rw [heq, List.length_append]
          have h1 : 1 ≤ rs1.length := by
            cases rs1 with
            | nil => exact absurd rfl hne1
            | cons a b => simp
          simp only [List.length_cons] at this hfuel
          omega
        rw [ih rs2 fuel buf sc mf mb hlen hfuel2 hmf hmb
          fun x hx => hwt x (by rw [heq]; exact List.mem_append.mpr (Or.inr hx))]
        rw [exceptMapOk]
        rw [← List.map_append, ← heq]

theorem execLoop_drain {fops : FloatOps} {m : RecMeta} {p : PlanPb}
    (hstr : isStreaming p = false) :
    ∀ (N : Nat) (buf ts0 : List (List Nat × List Nat)) (fuel mf : Nat) (mb : Int),
    buf.length < N → buf.length + 1 ≤ fuel → 0 < mf → 0 < mb →
    execLoop fops m p fuel ⟨ts0, buf, true⟩ mf mb = .ok buf := by
  intro N
  induction N with
  | zero =>
    intro buf _ _ _ _ hN
    omega
  | succ N ih =>
    intro buf ts0 fuel mf mb hN hfuel hmf hmb
    cases fuel with
    | zero => omega
    | succ fuel =>
      rw [execLoop]
      rw [show execOnce fops m p ⟨ts0, buf, true⟩ mf mb
          = .ok ((takeBudget mf mb buf).1,
              ⟨ts0, (takeBudget mf mb buf).2, true⟩,
              !(takeBudget mf mb buf).2.isEmpty) from by
        unfold execOnce
        rw [if_neg (by simp [hstr]), if_pos rfl]]
      rw [exceptBindOk]
      cases buf with
      | nil =>
        rw [takeBudget_nil]
        simp
      | cons kv rest =>
        have hne : (takeBudget mf mb (kv :: rest)).1 ≠ [] :=
          takeBudget_progress hmf hmb (by simp)
        rw [if_neg (by simpa using hne)]
        have happ := takeBudget_append mf mb (kv :: rest)
        have hlen : (takeBudget mf mb (kv :: rest)).2.length < N := by
          have h1 : 1 ≤ (takeBudget mf mb (kv :: rest)).1.length := by
            cases hx : (takeBudget mf mb (kv :: rest)).1 with
            | nil => exact absurd hx hne
            | cons a b => simp
          have h2 : (takeBudget mf mb (kv :: rest)).1.length
              + (takeBudget mf mb (kv :: rest)).2.length
              = (kv :: rest).length := by
            rw [← List.length_append, happ]
          simp only [List.length_cons] at h2 hN
          omega
        have hfuel2 : (takeBudget mf mb (kv :: rest)).2.length + 1 ≤ fuel := by
          have h1 : 1 ≤ (takeBudget mf mb (kv :: rest)).1.length := by
            cases hx : (takeBudget mf mb (kv :: rest)).1 with
            | nil => exact absurd hx hne
            | cons a b => simp
          have h2 : (takeBudget mf mb (kv :: rest)).1.length
              + (takeBudget mf mb (kv :: rest)).2.length
              = (kv :: rest).length := by
            rw [← List.length_append, happ]
          simp only [List.length_cons] at h2 hfuel
          omega
        rw [ih (takeBudget mf mb (kv :: rest)).2 ts0 fuel mf mb hlen hfuel2
          hmf hmb]
        rw [exceptMapOk, happ]

/-- A buffered-mode Execute chain over the whole scan emits exactly the rows
the scan phase computed, in order. -/
theorem execLoop_buffered {fops : FloatOps} {m : RecMeta} {p : PlanPb}
    (hstr : isStreaming p = false)
    {inputs kvs : List (List Nat × List Nat)}
    (hscan : scanKvs fops m p inputs = .ok kvs)
    {fuel mf : Nat} {mb : Int}
    (hfuel : kvs.length + 2 ≤ fuel) (hmf : 0 < mf) (hmb : 0 < mb) :
    execLoop fops m p fuel ⟨inputs, [], false⟩ mf mb = .ok kvs := by
  cases fuel with
  | zero => omega
  | succ fuel =>
    rw [execLoop]
    rw [show execOnce fops m p ⟨inputs, [], false⟩ mf mb
        = (scanKvs fops m p inputs).map fun kvs =>
          ((takeBudget mf mb kvs).1, ⟨[], (takeBudget mf mb kvs).2, true⟩,
            !(takeBudget mf mb kvs).2.isEmpty) from by
      unfold execOnce
      rw [if_neg (by simp [hstr])]
      rfl]
    rw [hscan, exceptMapOk, exceptBindOk]
    cases kvs with
    | nil =>
      rw [takeBudget_nil]
      simp
    | cons kv rest =>
      have hne : (takeBudget mf mb (kv :: rest)).1 ≠ [] :=
        takeBudget_progress hmf hmb (by simp)
      rw [if_neg (by simpa using hne)]
      have happ := takeBudget_append mf mb (kv :: rest)
      have hfuel2 : (takeBudget mf mb (kv :: rest)).2.length + 1 ≤ fuel := by
        have h1 : 1 ≤ (takeBudget mf mb (kv :: rest)).1.length := by
          cases hx : (takeBudget mf mb (kv :: rest)).1 with
          | nil => exact absurd hx hne
          | cons a b => simp
        have h2 : (takeBudget mf mb (kv :: rest)).1.length
            + (takeBudget mf mb (kv :: rest)).2.length
            = (kv :: rest).length := by
          rw [← List.length_append, happ]
        simp only [List.length_cons] at h2 hfuel
        omega
      rw [execLoop_drain hstr ((takeBudget mf mb (kv :: rest)).2.length + 1)
        (takeBudget mf mb (kv :: rest)).2 [] fuel mf mb (by omega) hfuel2
        hmf hmb]
      rw [exceptMapOk, happ]

/-! ## Mode C helpers -/

theorem aggFetch_sentinel {row : List Cell} {i : Int}
    (h : sentinelIdx row.length i = true) : aggFetch row i = none := by
  unfold sentinelIdx at h
  simp only [Bool.or_eq_true, decide_eq_true_eq] at h
  unfold aggFetch
  rw [dif_neg]
  omega

theorem countWithNull_cells (fops : FloatOps) (tys : List ColType) (i : Int)
    (rows : List (List Cell)) :
    computeAggCells fops tys [⟨.COUNTWITHNULL, i⟩] rows
      = .ok [.i64 (some (rows.length : Int))] := by
  simp only [computeAggCells, aggResult, List.length_map, exceptBindOk,
    exceptMapOk]

/-- Mode C: with no group-by columns and at least one aggregation operator,
the whole Execute chain yields exactly one output row, the aggregation
results in declared order re-encoded with the result schema. -/
theorem modeC_loop {fops : FloatOps} {m : RecMeta} {p : PlanPb}
    {inputs : List (List Nat × List Nat)} {ts rows : List (List Cell)}
    {row : List Cell} {fuel mf : Nat} {mb : Int}
    (hgb : p.groupBy = []) (hagg : p.aggs ≠ [])
    (hdec : decodeAll m (origCols p) inputs = .ok ts)
    (hproj : projectAll p ts = .ok rows)
    (hcells : computeAggCells fops (projTys p) p.aggs rows = .ok row)
    (hwt : wellTypedB (resultCols p) row = true)
    (hfuel : 3 ≤ fuel) (hmf : 0 < mf) (hmb : 0 < mb) :
    execLoop fops m p fuel ⟨inputs, [], false⟩ mf mb
      = .ok [encodeRecord m (resultCols p) row] := by
  have hstr : isStreaming p = false := by
    unfold isStreaming
    cases hx : p.aggs with
    | nil => exact absurd hx hagg
    | cons a rest => simp [hx]
  have hscan : scanKvs fops m p inputs = .ok [encodeRecord m (resultCols p) row] := by
    unfold scanKvs
    rw [hdec, exceptBindOk, hproj, exceptBindOk]
    unfold computeBuffered
    rw [if_pos (by simp [hgb]), hcells, exceptMapOk, exceptBindOk]
    unfold encodeRows
    rw [if_pos hwt]
    rfl
  exact execLoop_buffered hstr hscan (by simpa using hfuel) hmf hmb

/-! ## Transfer of well-typedness across a physical-index permutation -/

theorem wtCellForCol_transfer {c d : ColDesc} {x : Cell} (hty : c.typ = d.typ)
    (hnul : c.nullable = d.nullable) (h : wtCellForCol c x = true) :
    wtCellForCol d x = true := by
  unfold wtCellForCol at h ⊢
  rw [← hty, ← hnul]
  exact h

theorem wellTyped_transfer : ∀ (S Sp : List ColDesc),
    S.map (fun c => (c.typ, c.nullable)) = Sp.map (fun c => (c.typ, c.nullable)) →
    ∀ (t : List Cell), wellTypedB S t = true → wellTypedB Sp t = true := by
  intro S
  induction S with
  | nil =>
    intro Sp hsame t hwt
    cases Sp with
    | nil => exact hwt
    | cons c cs => simp at hsame
  | cons c cs ih =>
    intro Sp hsame t hwt
    cases Sp with
    | nil => simp at hsame
    | cons d ds =>
      simp only [List.map_cons, List.cons.injEq, Prod.mk.injEq] at hsame
      obtain ⟨⟨hty, hnul⟩, hrest⟩ := hsame
      cases t with
      | nil =>
        simp only [wellTypedB, List.length_nil, List.length_cons,
          Bool.and_eq_true, decide_eq_true_eq] at hwt
        omega
      | cons x xs =>
        simp only [wellTypedB, List.length_cons, List.zip_cons_cons,
          List.all_cons, Bool.and_eq_true, decide_eq_true_eq] at hwt ⊢
        have hlen := hwt.1
        have hhd := hwt.2.1
        have htl := hwt.2.2
        have hcs : wellTypedB cs xs = true := by
          simp only [wellTypedB, Bool.and_eq_true, decide_eq_true_eq]
          exact ⟨by omega, htl⟩
        have hds := ih ds hrest xs hcs
        simp only [wellTypedB, Bool.and_eq_true, decide_eq_true_eq] at hds
        refine ⟨?_, wtCellForCol_transfer hty hnul hhd, hds.2⟩
        have : ds.length = cs.length := by
          have := congrArg List.length hrest
          simpa using this.symm
        omega

/-! ## The assertion helper of the expression test library

Embedded from assertions.h: Equals compares two wrapped optional operands and
reports which of the two sides was null on mismatch; the final branch reports
that both sides were null. -/

/-- Result of the gtest assertion helper. -/
inductive AssertRes
  | success
  | failNe
  | failLeftNull
  | failRightNull
  | failBothNull
deriving DecidableEq

/-- The Equals helper of assertions.h over wrapped optionals: equal operands
succeed; otherwise the failure message depends on which side holds a value,
with a final branch for the case that both are null. -/
def Equals {α : Type} [DecidableEq α] (actual expected : Option α) : AssertRes :=
  if actual = expected then .success
  else if actual.isSome then
    (if expected.isSome then .failNe else .failRightNull)
  else if expected.isSome then .failLeftNull
  else .failBothNull

/-! ## The concrete schemas, records and plans of the test harness -/

/-- The six-column schema the Prepare test registers: BOOL key, INT32,
FLOAT32, INT64, FLOAT64 key, STRING key, physical indices zero to five. -/
def prepareCols : List ColDesc :=
  [⟨.tBool, true, true, 0⟩, ⟨.tInt32, false, true, 1⟩,
   ⟨.tFloat32, false, true, 2⟩, ⟨.tInt64, false, true, 3⟩,
   ⟨.tFloat64, true, true, 4⟩, ⟨.tString, true, true, 5⟩]

/-- The disordered schema of PrepareForDisorder in logical order STRING,
FLOAT64, INT64, FLOAT32, INT32, BOOL with physical indices zero to five and
the string and double columns as keys. -/
def disorderCols : List ColDesc :=
  [⟨.tString, true, true, 0⟩, ⟨.tFloat64, true, true, 1⟩,
   ⟨.tInt64, false, true, 2⟩, ⟨.tFloat32, false, true, 3⟩,
   ⟨.tInt32, false, true, 4⟩, ⟨.tBool, false, true, 5⟩]

/-- Key prefix data of the test table: namespace byte, common id one, schema
version one. -/
def prepareMeta : RecMeta := { ns := 114, commonId := 1, version := 1 }

/-- The all-null record over the six-column schema, the first record the
Prepare test inserts. -/
def allNullRec : List Cell :=
  [.b none, .i32 none, .f32 none, .i64 none, .f64 none, .str none]

/-- The pass-through plan of OpenSelection: no selection, no group-by, no
aggregation, result schema mirroring the original. -/
def planPassthrough : PlanPb :=
  { schemaVersion := 1, original := some { commonId := 1, cols := prepareCols },
    selection := [], result := some { commonId := 1, cols := prepareCols },
    groupBy := [], aggs := [] }

/-- The first degenerate plan of the Open test: only the schema version is
set. -/
def planDegenerate1 : PlanPb :=
  { schemaVersion := 1, original := none, selection := [], result := none,
    groupBy := [], aggs := [] }

/-- The second degenerate plan of the Open test: an original schema and
twelve selection entries, but no result schema. -/
def planDegenerate2 : PlanPb :=
  { schemaVersion := 1, original := some { commonId := 1, cols := prepareCols },
    selection := [0, 1, 2, 3, 4, 5, 0, 1, 2, 3, 4, 5], result := none,
    groupBy := [], aggs := [] }

/-- A count plan over the six-column schema with one COUNT_WITH_NULL operator
at a parametric column index and a single INT64 result column. -/
def planCnt (i : Int) : PlanPb :=
  { schemaVersion := 1, original := some { commonId := 1, cols := prepareCols },
    selection := [], result := some { commonId := 1, cols := [⟨.tInt64, false, true, 0⟩] },
    groupBy := [], aggs := [{ oper := .COUNTWITHNULL, idxOfCol := i }] }

theorem openValidate_planCnt (i : Int) : openValidate (planCnt i) = .OK := by
  unfold openValidate
  rw [if_neg (by simp [planCnt])]
  rw [if_neg (by simp [planCnt, commonIdOK])]
  rw [if_neg (by simp [planCnt])]
  rw [if_neg (by simp [planCnt, projLen])]
  rw [if_neg (by simp [planCnt, aggIdxOK_always])]
  rw [if_neg (by simp [planCnt, resultCols])]
  rw [if_neg (by simp [planCnt, resultCols, expectedResultLen])]
  rw [if_neg (by simp [planCnt, resultCols, aggTyOK])]

/-! ## Witness data -/

/-- Trivial float operations for concrete instantiations; every theorem over
the executor holds for every choice of FloatOps. -/
def fopsTriv : FloatOps := { addF64 := fun _ _ => 0, f32toF64 := fun _ => 0 }

/-- The six-column schema with the physical indices reversed, a permutation
partner of the Prepare schema. -/
def prepareColsRev : List ColDesc :=
  [⟨.tBool, true, true, 5⟩, ⟨.tInt32, false, true, 4⟩,
   ⟨.tFloat32, false, true, 3⟩, ⟨.tInt64, false, true, 2⟩,
   ⟨.tFloat64, true, true, 1⟩, ⟨.tString, true, true, 0⟩]

/-- A non-null record over the six-column schema. -/
def witRec : List Cell :=
  [.b (some false), .i32 (some 1), .f32 (some 3), .i64 (some 100),
   .f64 (some 5), .str (some [102, 100, 102, 52, 53])]

/-- Eight input rows, as the Prepare test inserts eight records. -/
def eightRows : List (List Cell) := List.replicate 8 allNullRec

/-- The all-null record over the disordered schema, the cells in the
disordered logical order. -/
def allNullRecDis : List Cell :=
  [.str none, .f64 none, .i64 none, .f32 none, .i32 none, .b none]

/-! ## The claims -/

/-- C1: for every well-typed tuple over the six-column schema (BOOL key,
INT32, FLOAT32, INT64, FLOAT64 key, STRING key), with any mix of null and
non-null cells, encoding the tuple with RecordEncoder.Encode and decoding
the resulting key and value bytes under the same schema yields a tuple equal
to the original; in particular each of the eight records the Prepare test
inserts round-trips through the pass-through Execute unchanged. -/
theorem claim1 (m : RecMeta) (t : List Cell)
    (ht : wellTypedB prepareCols t = true) :
    decodeRecord m prepareCols (encodeRecord m prepareCols t) = some t :=
  decodeRecord_encodeRecord m prepareCols t (by decide) ht

theorem claim1_witness :
    wellTypedB prepareCols allNullRec = true ∧
    decodeRecord prepareMeta prepareCols
        (encodeRecord prepareMeta prepareCols allNullRec) = some allNullRec :=
  ⟨by decide, claim1 prepareMeta allNullRec (by decide)⟩

/-- C2: for any two tuples over a shared valid schema, if the first is
strictly below the second in the lexicographic order of the key columns
taken in physical-index order, the key bytes produced by
RecordEncoder.Encode compare strictly less under memcmp; this holds in
particular for every pair of the eight keys the Prepare test compares while
tracking the minimum and maximum key. -/
theorem claim2 (m : RecMeta) (S : List ColDesc) (t1 t2 : List Cell)
    (hS : validSchemaB S = true)
    (h1 : wellTypedB S t1 = true) (h2 : wellTypedB S t2 = true)
    (hlt : cellsLtB (keyCells S t1) (keyCells S t2) = true) :
    memcmp (encodeRecord m S t1).1 (encodeRecord m S t2).1 = -1 :=
  memcmp_of_bytesDiv (encodeRecord_key_div m S t1 t2 hS h1 h2 hlt)

theorem claim2_witness :
    (validSchemaB prepareCols = true ∧
     wellTypedB prepareCols allNullRec = true ∧
     wellTypedB prepareCols witRec = true ∧
     cellsLtB (keyCells prepareCols allNullRec) (keyCells prepareCols witRec)
       = true) ∧
    memcmp (encodeRecord prepareMeta prepareCols allNullRec).1
        (encodeRecord prepareMeta prepareCols witRec).1 = -1 :=
  ⟨⟨by decide, by decide, by decide, by decide⟩,
    claim2 prepareMeta prepareCols allNullRec witRec (by decide) (by decide)
      (by decide) (by decide)⟩

/-- C3: for any two valid schemas over the same logical columns that differ
only in the physical-index mapping, decoding the encoding of a well-typed
tuple yields the same tuple under either schema; and every well-typed tuple
over the disordered schema of PrepareForDisorder, logical order STRING,
FLOAT64, INT64, FLOAT32, INT32, BOOL with physical indices zero through
five, decodes back to the inserted values. -/
theorem claim3 (m : RecMeta) :
    (∀ (S Sp : List ColDesc) (t : List Cell), validSchemaB S = true →
      validSchemaB Sp = true →
      S.map (fun c => (c.typ, c.isKey, c.nullable))
        = Sp.map (fun c => (c.typ, c.isKey, c.nullable)) →
      wellTypedB S t = true →
      decodeRecord m S (encodeRecord m S t)
        = decodeRecord m Sp (encodeRecord m Sp t)) ∧
    (∀ t : List Cell, wellTypedB disorderCols t = true →
      decodeRecord m disorderCols (encodeRecord m disorderCols t) = some t) := by
  constructor
  · intro S Sp t hS hSp hsame ht
    have hpair : S.map (fun c => (c.typ, c.nullable))
        = Sp.map (fun c => (c.typ, c.nullable)) := by
      have h2 := congrArg
        (List.map fun q : ColType × Bool × Bool => (q.1, q.2.2)) hsame
      simpa [List.map_map, Function.comp] using h2
    have htp := wellTyped_transfer S Sp hpair t ht
    rw [decodeRecord_encodeRecord m S t hS ht,
      decodeRecord_encodeRecord m Sp t hSp htp]
  · intro t ht
    exact decodeRecord_encodeRecord m disorderCols t (by decide) ht

theorem claim3_witness :
    (validSchemaB prepareCols = true ∧ validSchemaB prepareColsRev = true ∧
     prepareCols.map (fun c => (c.typ, c.isKey, c.nullable))
       = prepareColsRev.map (fun c => (c.typ, c.isKey, c.nullable)) ∧
     wellTypedB prepareCols allNullRec = true) ∧
    decodeRecord prepareMeta prepareCols
        (encodeRecord prepareMeta prepareCols allNullRec)
      = decodeRecord prepareMeta prepareColsRev
        (encodeRecord prepareMeta prepareColsRev allNullRec) ∧
    decodeRecord prepareMeta disorderCols
        (encodeRecord prepareMeta disorderCols allNullRecDis)
      = some allNullRecDis :=
  ⟨⟨by decide, by decide, by decide, by decide⟩,
    (claim3 prepareMeta).1 prepareCols prepareColsRev allNullRec (by decide)
      (by decide) (by decide) (by decide),
    (claim3 prepareMeta).2 allNullRecDis (by decide)⟩

/-- C4: when the plan has empty selection columns, empty group-by columns
and empty aggregation operators, and the result schema mirrors the original,
the Execute chain over the scanned range emits exactly the input rows, equal
to the inserted records, in input order and nothing else; the harness
repeats Execute until a call returns no rows. -/
theorem claim4 (fops : FloatOps) (m : RecMeta) (p : PlanPb)
    (rs : List (List Cell)) (fuel mf : Nat) (mb : Int)
    (hsel : p.selection = []) (hgb : p.groupBy = []) (hagg : p.aggs = [])
    (hres : resultCols p = origCols p)
    (hS : validSchemaB (origCols p) = true)
    (hwt : ∀ r ∈ rs, wellTypedB (origCols p) r = true)
    (hfuel : rs.length + 1 ≤ fuel) (hmf : 0 < mf) (hmb : 0 < mb) :
    execLoop fops m p fuel
        ⟨rs.map (encodeRecord m (origCols p)), [], false⟩ mf mb
      = .ok (rs.map (encodeRecord m (origCols p))) :=
  execLoop_passthrough (by simp [isStreaming, hgb, hagg]) hsel hres hS
    (rs.length + 1) rs fuel [] false mf mb (by omega) hfuel hmf hmb hwt

theorem claim4_witness :
    (planPassthrough.selection = [] ∧ planPassthrough.groupBy = [] ∧
     planPassthrough.aggs = [] ∧
     resultCols planPassthrough = origCols planPassthrough ∧
     validSchemaB (origCols planPassthrough) = true ∧
     (∀ r ∈ eightRows, wellTypedB (origCols planPassthrough) r = true)) ∧
    execLoop fopsTriv prepareMeta planPassthrough 9
        ⟨eightRows.map (encodeRecord prepareMeta (origCols planPassthrough)),
          [], false⟩ 2 1000000000000000
      = .ok (eightRows.map (encodeRecord prepareMeta (origCols planPassthrough))) :=
  ⟨⟨rfl, rfl, rfl, rfl, by decide, by decide⟩,
    claim4 fopsTriv prepareMeta planPassthrough eightRows 9 2 1000000000000000
      rfl rfl rfl rfl (by decide) (by decide) (by decide) (by decide) (by decide)⟩

/-- C5: with aggregation operators but no group-by columns, the Execute
chain over the whole scan emits exactly one output row, whose columns are
the aggregation results in declared order re-encoded with the result
schema; for eight input rows under a plan whose only aggregation is
COUNT_WITH_NULL, that single row contains the value eight. -/
theorem claim5 (fops : FloatOps) (m : RecMeta) (p : PlanPb)
    (inputs : List (List Nat × List Nat)) (ts rows : List (List Cell))
    (row : List Cell) (fuel mf : Nat) (mb : Int)
    (hgb : p.groupBy = []) (hagg : p.aggs ≠ [])
    (hdec : decodeAll m (origCols p) inputs = .ok ts)
    (hproj : projectAll p ts = .ok rows)
    (hcells : computeAggCells fops (projTys p) p.aggs rows = .ok row)
    (hwt : wellTypedB (resultCols p) row = true)
    (hfuel : 3 ≤ fuel) (hmf : 0 < mf) (hmb : 0 < mb) :
    execLoop fops m p fuel ⟨inputs, [], false⟩ mf mb
      = .ok [encodeRecord m (resultCols p) row] :=
  modeC_loop hgb hagg hdec hproj hcells hwt hfuel hmf hmb

theorem claim5_witness :
    ((planCnt (-1)).groupBy = [] ∧ (planCnt (-1)).aggs ≠ [] ∧
     decodeAll prepareMeta (origCols (planCnt (-1)))
        (eightRows.map (encodeRecord prepareMeta (origCols (planCnt (-1)))))
       = .ok eightRows ∧
     projectAll (planCnt (-1)) eightRows = .ok eightRows ∧
     computeAggCells fopsTriv (projTys (planCnt (-1))) (planCnt (-1)).aggs
        eightRows = Except.ok [.i64 (some 8)] ∧
     wellTypedB (resultCols (planCnt (-1))) [.i64 (some 8)] = true) ∧
    execLoop fopsTriv prepareMeta (planCnt (-1)) 3
        ⟨eightRows.map (encodeRecord prepareMeta (origCols (planCnt (-1)))),
          [], false⟩ 2 1000000000000000
      = .ok [encodeRecord prepareMeta (resultCols (planCnt (-1))) [.i64 (some 8)]] :=
  ⟨⟨rfl, by decide,
      decodeAll_enc prepareMeta (origCols (planCnt (-1))) (by decide) eightRows
        (by decide),
      projectAll_empty_sel rfl eightRows, by rfl, by decide⟩,
    claim5 fopsTriv prepareMeta (planCnt (-1))
      (eightRows.map (encodeRecord prepareMeta (origCols (planCnt (-1)))))
      eightRows eightRows [.i64 (some 8)] 3 2 1000000000000000 rfl (by decide)
      (decodeAll_enc prepareMeta (origCols (planCnt (-1))) (by decide) eightRows
        (by decide))
      (projectAll_empty_sel rfl eightRows) (by rfl) (by decide) (by decide)
      (by decide) (by decide)⟩

/-- C6: an aggregation operator whose column index is negative or at or past
the end of the projected tuple is accepted by Open as the legal no-column
sentinel rather than rejected as IndexOutOfRange, during Execute that
accumulator receives a virtual null on every input row, and
COUNT_WITH_NULL at such an index over eight rows yields eight. -/
theorem claim6 (fops : FloatOps) (m : RecMeta) (i : Int)
    (rs : List (List Cell)) (fuel mf : Nat) (mb : Int)
    (hsent : sentinelIdx (projLen (planCnt i)) i = true)
    (hlen : rs.length = 8)
    (hwt : ∀ r ∈ rs, wellTypedB prepareCols r = true)
    (hfuel : 3 ≤ fuel) (hmf : 0 < mf) (hmb : 0 < mb) :
    openValidate (planCnt i) = .OK ∧
    (∀ row : List Cell, row.length = projLen (planCnt i) → aggFetch row i = none) ∧
    execLoop fops m (planCnt i) fuel
        ⟨rs.map (encodeRecord m prepareCols), [], false⟩ mf mb
      = .ok [encodeRecord m (resultCols (planCnt i)) [.i64 (some 8)]] := by
  refine ⟨openValidate_planCnt i, ?_, ?_⟩
  · intro row hrow
    exact aggFetch_sentinel (by rw [hrow]; exact hsent)
  · have hdec := decodeAll_enc m (origCols (planCnt i)) (by rfl) rs hwt
    have hproj := @projectAll_empty_sel (planCnt i) rfl rs
    have hc := countWithNull_cells fops (projTys (planCnt i)) i rs
    rw [hlen] at hc
    exact modeC_loop rfl (by simp [planCnt]) hdec hproj hc (by rfl) hfuel hmf hmb

theorem claim6_witness :
    (sentinelIdx (projLen (planCnt 88)) 88 = true ∧ eightRows.length = 8 ∧
     (∀ r ∈ eightRows, wellTypedB prepareCols r = true)) ∧
    openValidate (planCnt 88) = .OK ∧
    (∀ row : List Cell, row.length = projLen (planCnt 88) →
      aggFetch row 88 = none) ∧
    execLoop fopsTriv prepareMeta (planCnt 88) 3
        ⟨eightRows.map (encodeRecord prepareMeta prepareCols), [], false⟩
        2 1000000000000000
      = .ok [encodeRecord prepareMeta (resultCols (planCnt 88)) [.i64 (some 8)]] :=
  ⟨⟨by decide, by decide, by decide⟩,
    claim6 fopsTriv prepareMeta 88 eightRows 3 2 1000000000000000 (by decide)
      (by decide) (by decide) (by decide) (by decide) (by decide)⟩

/-- C7: every successful Execute call that receives a non-empty budget
either returns at least one output row or reports no more work, and once a
call has reported no more work, every subsequent Execute on the returned
state yields zero rows under any budget; the harness loop repeating Execute
until the batch is empty therefore terminates on every finite input. -/
theorem claim7 (fops : FloatOps) (m : RecMeta) (p : PlanPb) (st : ExecSt)
    (mf : Nat) (mb : Int) (out : List (List Nat × List Nat)) (st2 : ExecSt)
    (hm : Bool)
    (h : execOnce fops m p st mf mb = .ok (out, st2, hm))
    (hmf : 0 < mf) (hmb : 0 < mb) :
    (out ≠ [] ∨ hm = false) ∧
    (hm = false → ∀ (mf2 : Nat) (mb2 : Int)
      (out2 : List (List Nat × List Nat)) (st3 : ExecSt) (hm2 : Bool),
      execOnce fops m p st2 mf2 mb2 = .ok (out2, st3, hm2) → out2 = []) := by
  refine ⟨execOnce_progress h hmf hmb, fun hfalse mf2 mb2 out2 st3 hm2 h2 => ?_⟩
  exact execOnce_stop (hfalse ▸ h) h2

theorem claim7_witness :
    (([] : List (List Nat × List Nat)) ≠ [] ∨ false = false) ∧
    (false = false → ∀ (mf2 : Nat) (mb2 : Int)
      (out2 : List (List Nat × List Nat)) (st3 : ExecSt) (hm2 : Bool),
      execOnce fopsTriv prepareMeta planPassthrough ⟨[], [], false⟩ mf2 mb2
        = .ok (out2, st3, hm2) → out2 = []) :=
  claim7 fopsTriv prepareMeta planPassthrough ⟨[], [], false⟩ 1 1 []
    ⟨[], [], false⟩ false (by rfl) (by decide) (by decide)

/-- C8: Open returns OK for every degenerate plan of the harness, including
the plan carrying only schema version one and the plan with an original
schema and selection columns but an empty result schema; no Open-time
validation failure is raised for these inputs. -/
theorem claim8 :
    openValidate planDegenerate1 = .OK ∧ openValidate planDegenerate2 = .OK := by
  decide

/-- C9: on the same coprocessor instance, Close followed by Open with a new
plan behaves exactly as Open on a fresh instance, and when the plan is valid
the pair returns OK and leaves the instance configured by the new plan. -/
theorem claim9 (st : CopInstance) (p : PlanPb) :
    openCop p (closeCop st) = openCop p emptyCop ∧
    (openValidate p = .OK →
      openCop p (closeCop st) = (.OK, { plan := some p, buffered := [] })) := by
  constructor
  · rfl
  · intro h
    unfold openCop closeCop emptyCop
    rw [h]

theorem claim9_witness :
    (openCop planPassthrough (closeCop ⟨some planDegenerate1, []⟩)
        = openCop planPassthrough emptyCop) ∧
    openValidate planPassthrough = .OK ∧
    openCop planPassthrough (closeCop ⟨some planDegenerate1, []⟩)
      = (.OK, { plan := some planPassthrough, buffered := [] }) :=
  ⟨(claim9 ⟨some planDegenerate1, []⟩ planPassthrough).1, by decide,
    (claim9 ⟨some planDegenerate1, []⟩ planPassthrough).2 (by decide)⟩

/-- C10: in the Equals assertion helper, whenever both the actual and the
expected operand are null, the equality test succeeds and the helper returns
success, so the trailing both-are-null failure branch is unreachable for
every pair of well-typed operands. -/
theorem claim10 {α : Type} [DecidableEq α] (a e : Option α)
    (ha : a = none) (he : e = none) :
    Equals a e = .success ∧ ∀ (x y : Option α), Equals x y ≠ .failBothNull := by
  constructor
  · subst ha
    subst he
    simp [Equals]
  · intro x y
    cases x with
    | none =>
      cases y with
      | none => simp [Equals]
      | some b => simp [Equals]
    | some a2 =>
      cases y with
      | none => simp [Equals]
      | some b =>
        by_cases hxy : (some a2 : Option α) = some b <;> simp [Equals, hxy]

theorem claim10_witness :
    Equals (none : Option Int) none = AssertRes.success ∧
    ∀ (x y : Option Int), Equals x y ≠ AssertRes.failBothNull :=
  claim10 (none : Option Int) none rfl rfl

end DingoCop
